import Mathlib

/-!
Verification development for the pySmithPlot Smith-chart engine
(`pysmithchart`).  The floating-point code is embedded with exact
arithmetic: computable rationals (`ℚ`) where the source only performs
field operations and comparisons, and real/complex numbers (`ℝ`, `ℂ`)
where the source uses transcendental functions (`np.angle`, `np.cos`,
`np.sin`, `np.log10`).
-/

/-- Computable complex numbers over `ℚ`, modelling numpy complex values
(`smithhelper.py` works with `complex` / `dtype=complex` arrays).
Division is numpy complex division `a / b = a * conj b / |b|²`, which on
a zero denominator yields `0` in this exact model (the claims never
exercise that path). -/
structure QComplex where
  re : ℚ
  im : ℚ
deriving DecidableEq

instance : Zero QComplex := ⟨⟨0, 0⟩⟩

instance : One QComplex := ⟨⟨1, 0⟩⟩

instance : Add QComplex := ⟨fun a b => ⟨a.re + b.re, a.im + b.im⟩⟩

instance : Neg QComplex := ⟨fun a => ⟨-a.re, -a.im⟩⟩

instance : Sub QComplex := ⟨fun a b => ⟨a.re - b.re, a.im - b.im⟩⟩

instance : Mul QComplex :=
  ⟨fun a b => ⟨a.re * b.re - a.im * b.im, a.re * b.im + a.im * b.re⟩⟩

/-- Squared modulus `re² + im²` of a rational complex number. -/
def QComplex.normSq (z : QComplex) : ℚ := z.re * z.re + z.im * z.im

instance : Inv QComplex :=
  ⟨fun z => ⟨z.re / z.normSq, -z.im / z.normSq⟩⟩

instance : Div QComplex := ⟨fun a b => a * b⁻¹⟩

/-- Embedding of a rational number as a complex number with zero
imaginary part. -/
def QComplex.ofQ (q : ℚ) : QComplex := ⟨q, 0⟩

/-- The constant `EPSILON = 1e-7` from `smithhelper.py`. -/
def EPSILON_Q : ℚ := 1 / 10 ^ 7

/-- The constant `INF = 1e9` from `smithhelper.py` (the large-number
sentinel standing for infinity on the chart). -/
def INF_Q : ℚ := 10 ^ 9

/-!  Model of the conversion utility `xy_to_z` (`smithhelper.py`).

An entry of a numpy array in the inputs the claims quantify over is a
(rational) number or a string: `xy_to_z` only treats strings specially in
the `(2, N)` branch, where empty strings are replaced by `"0.0"` before
`astype(float)`.  Complex-valued entries and exponent-notation float
strings are outside every claim and are not modelled. -/

/-- One entry of an input array: a number or a string. -/
inductive Entry where
  | num : ℚ → Entry
  | str : String → Entry
deriving DecidableEq

/-- A scalar (non-iterable) positional argument: a real number, a complex
number, or a string. -/
inductive SVal where
  | real : ℚ → SVal
  | cplx : ℚ → ℚ → SVal
  | str : String → SVal
deriving DecidableEq

/-- A numpy array argument by dimensionality.  `arr3` stands for any
array of more than two dimensions (the code only distinguishes
`ndim == 2` and `ndim > 2`; deeper nesting behaves like depth 3). -/
inductive PyArr where
  | arr1 : List Entry → PyArr
  | arr2 : List (List Entry) → PyArr
  | arr3 : List (List (List Entry)) → PyArr
deriving DecidableEq

/-- A positional argument of `xy_to_z`: a scalar or an array. -/
inductive Arg where
  | scalar : SVal → Arg
  | array : PyArr → Arg
deriving DecidableEq

/-- Result value of `xy_to_z`: a scalar passed through, a complex scalar
built from two real scalars, a 1-D array passed through, or a combined
complex array (1-D or 2-D). -/
inductive ZRes where
  | val : SVal → ZRes
  | scalarC : QComplex → ZRes
  | arr1 : List Entry → ZRes
  | arrC : List QComplex → ZRes
  | arrC2 : List (List QComplex) → ZRes
deriving DecidableEq

/-- Error taxonomy for `xy_to_z` (all are `ValueError`/`TypeError` in
Python; the spec distinguishes them by raise site, §7 of the spec). -/
inductive XyErr where
  /-- single array argument of bad shape (`ndim > 2`, or 2-D with first
  dimension ≠ 2) -/
  | shapeError
  /-- two array arguments whose lengths differ -/
  | sizeMismatchError
  /-- zero or more than two positional arguments -/
  | argumentError
  /-- an entry could not be cast to float (`float()` raised) -/
  | castError
  /-- `len()` applied to a scalar, or float() applied to a non-scalar
  (TypeError in Python) -/
  | typeError
  /-- elementwise combination of arrays with incompatible inner shapes
  (numpy broadcast failure; broadcasting of unequal but compatible
  shapes is not modelled — no claim exercises it) -/
  | broadcastError
deriving DecidableEq

instance {ε α : Type} [DecidableEq ε] [DecidableEq α] : DecidableEq (Except ε α) :=
  fun a b =>
    match a, b with
    | .ok x, .ok y =>
      if h : x = y then .isTrue (by rw [h])
      else .isFalse (fun hh => h (Except.ok.inj hh))
    | .error x, .error y =>
      if h : x = y then .isTrue (by rw [h])
      else .isFalse (fun hh => h (Except.error.inj hh))
    | .ok _, .error _ => .isFalse (fun hh => Except.noConfusion hh)
    | .error _, .ok _ => .isFalse (fun hh => Except.noConfusion hh)

/-- Parse a list of digit characters into a natural number. -/
def parseDigits : List Char → Option ℕ
  | [] => none
  | cs =>
    cs.foldl
      (fun acc c =>
        match acc with
        | none => none
        | some n => if c.isDigit then some (10 * n + (c.toNat - 48)) else none)
      (some 0)

/-- Split a character list at the first decimal point, if any. -/
def splitDot : List Char → List Char × Option (List Char)
  | [] => ([], none)
  | c :: cs =>
    if c = '.' then ([], some cs)
    else
      let r := splitDot cs
      (c :: r.1, r.2)

/-- Digits-and-dot core of the float parser. -/
def pyFloatCore (cs : List Char) : Option ℚ :=
  match splitDot cs with
  | (a, none) => (parseDigits a).map (fun n => (n : ℚ))
  | (a, some b) =>
    if b.contains '.' then none
    else if a = [] ∧ b = [] then none
    else
      let ip : Option ℕ := if a = [] then some 0 else parseDigits a
      let fp : Option ℕ := if b = [] then some 0 else parseDigits b
      match ip, fp with
      | some i, some f => some ((i : ℚ) + (f : ℚ) / 10 ^ b.length)
      | _, _ => none

/-- Model of Python `float(s)` on decimal strings: optional sign, digits,
optional single decimal point (at least one digit overall).  Exponent
notation is not modelled (no claim uses it).  `float("")` raises, hence
`none`. -/
def pyFloat (s : String) : Option ℚ :=
  match s.toList with
  | '-' :: rest => (pyFloatCore rest).map Neg.neg
  | cs => pyFloatCore cs

/-- The `np.where(z == "", "0.0", z)` step of the `(2, N)` branch:
empty-string entries are replaced by `"0.0"`. -/
def coerceEmpty (e : Entry) : Entry :=
  match e with
  | .str "" => .str "0.0"
  | _ => e

/-- The `astype(float)` step: numbers pass through, strings are parsed
with `float()`. -/
def entryFloat : Entry → Option ℚ
  | .num q => some q
  | .str s => pyFloat s

/-- Cast used by `x + 1j * y` on arrays: numpy arithmetic on string
arrays raises, so only numeric entries succeed. -/
def entryNum : Entry → Option ℚ
  | .num q => some q
  | .str _ => none

/-- Sequence a list of optional values. -/
def optList {α : Type} : List (Option α) → Option (List α)
  | [] => some []
  | o :: os =>
    match o, optList os with
    | some a, some as_ => some (a :: as_)
    | _, _ => none

/-- Combine one row of real parts and one row of imaginary parts into a
complex array (`z0 + 1j * z1` after the empty-string coercion and float
cast), as in the `(2, N)` branch of `xy_to_z`.  A 2-D numpy array has
equal-length rows, so the rows are combined positionally. -/
def combineRows (r0 r1 : List Entry) : Except XyErr ZRes :=
  match optList (r0.map (fun e => entryFloat (coerceEmpty e))),
      optList (r1.map (fun e => entryFloat (coerceEmpty e))) with
  | some xs, some ys => .ok (.arrC (List.zipWith (fun x y => ⟨x, y⟩) xs ys))
  | _, _ => .error .castError

/-- Length of a numpy array along its first dimension (`len`). -/
def pyLen : PyArr → ℕ
  | .arr1 l => l.length
  | .arr2 r => r.length
  | .arr3 t => t.length

/-- Combine a 1-D numeric array pair into a complex array
(`x + 1j * y`). -/
def combine1 (xs ys : List Entry) : Except XyErr (List QComplex) :=
  match optList (xs.map entryNum), optList (ys.map entryNum) with
  | some as_, some bs => .ok (List.zipWith (fun a b => ⟨a, b⟩) as_ bs)
  | _, _ => .error .castError

/-- Elementwise combination `x + 1j * y` of two array arguments of equal
first-dimension length.  Matching shapes combine elementwise; anything
else is a broadcast failure in this model. -/
def combineArr (a b : PyArr) : Except XyErr ZRes :=
  match a, b with
  | .arr1 xs, .arr1 ys => (combine1 xs ys).map .arrC
  | .arr2 xr, .arr2 yr =>
    if xr.map List.length = yr.map List.length then
      (optList ((List.zipWith combine1 xr yr).map Except.toOption)).elim
        (.error .castError) (fun rows => .ok (.arrC2 rows))
    else .error .broadcastError
  | _, _ => .error .broadcastError

/-- Model of `smithhelper.xy_to_z` (the conversion utility of spec §4.1).
Mirrors the source branch for branch:

* one argument: scalars pass through; 1-D arrays pass through; 2-D
  arrays with first dimension 2 are combined as stacked real/imaginary
  rows (after empty-string coercion); 2-D arrays with first dimension ≠ 2
  and arrays of more than 2 dimensions raise;
* two arguments: two arrays of equal length combine elementwise, unequal
  lengths raise; two scalars are cast with `float()` and combined;
  mixed scalar/array raises a `TypeError` (`len()` of a 0-d array, or
  `float()` of an array);
* zero or more than two arguments raise. -/
def xy_to_z : List Arg → Except XyErr ZRes
  | [a] =>
    match a with
    | .scalar v => .ok (.val v)
    | .array (.arr1 l) => .ok (.arr1 l)
    | .array (.arr2 rows) =>
      match rows with
      | [r0, r1] => combineRows r0 r1
      | _ => .error .shapeError
    | .array (.arr3 _) => .error .shapeError
  | [a, b] =>
    match a, b with
    | .array x, .array y =>
      if pyLen x = pyLen y then combineArr x y else .error .sizeMismatchError
    | .array _, .scalar _ => .error .typeError
    | .scalar x, .scalar y =>
      match x, y with
      | .real qx, .real qy => .ok (.scalarC ⟨qx, qy⟩)
      | .str sx, .real qy =>
        (pyFloat sx).elim (.error .castError) (fun qx => .ok (.scalarC ⟨qx, qy⟩))
      | .real qx, .str sy =>
        (pyFloat sy).elim (.error .castError) (fun qy => .ok (.scalarC ⟨qx, qy⟩))
      | .str sx, .str sy =>
        match pyFloat sx, pyFloat sy with
        | some qx, some qy => .ok (.scalarC ⟨qx, qy⟩)
        | _, _ => .error .castError
      | _, _ => .error .typeError
    | .scalar _, .array _ => .error .typeError
  | _ => .error .argumentError

/-! Model of `SmithAxes._add_gridline` (claim C10). -/

/-- Gridline kind passed to `_add_gridline`. -/
inductive ArcT where
  | real
  | imag
deriving DecidableEq

/-- The `_interpolation_steps` tag attached to a gridline's path.
`linear` is the `Line2D` default (`1`). -/
inductive LineTag where
  | linear
  | xGridline
  | yGridline
deriving DecidableEq

/-- A gridline as produced by `_add_gridline`: the two path vertices and
the interpolation tag. -/
structure GLine where
  verts : List (ℚ × ℚ)
  tag : LineTag
deriving DecidableEq

/-- Model of `SmithAxes._add_gridline`: a real gridline is a vertical
two-point line at `x = ps` tagged `x_gridline`; an imaginary gridline is
a horizontal two-point line at `y = ps`, tagged `y_gridline` only when
`abs(ps) > EPSILON`, otherwise left with the default linear tag. -/
def addGridline (arcType : ArcT) (ps p0 p1 : ℚ) : GLine :=
  match arcType with
  | .real => ⟨[(ps, p0), (ps, p1)], .xGridline⟩
  | .imag => ⟨[(p0, ps), (p1, ps)], if EPSILON_Q < |ps| then .yGridline else .linear⟩

/-! Model of the fancy major grid construction in `SmithAxes.grid`
(claim C2): teardown of the tier's previous arcs, the `check_fancy`
symmetry check, threshold validation, the zero-reactance line, and the
two merge loops.  Styling keyword handling is omitted (it does not touch
the arc list or raise). -/

/-- Errors raised inside `SmithAxes.grid`: the `check_fancy`
`ValueError` (the spec's `PreconditionViolation`) and Python `assert`
failures (`split_threshold`, `add_arc`, `_add_gridline`). -/
inductive GridError where
  | preconditionViolation
  | assertionError
deriving DecidableEq

/-- Record of one arc appended to `_majorarcs`: the tuple
`(arc_type, (ps, p0, p1))` stored by `add_arc`. -/
structure ArcRec where
  arcType : ArcT
  ps : ℚ
  p0 : ℚ
  p1 : ℚ
deriving DecidableEq

/-- The gridline state owned by the axes: the major and minor arc
lists. -/
structure GridState where
  majorarcs : List ArcRec
  minorarcs : List ArcRec
deriving DecidableEq

/-- The Möbius transform `moebius_z(x, y, norm)` on a real/imaginary
pair, as called in the merge loops of `grid`. -/
def moebiusXY (norm x y : ℚ) : QComplex :=
  QComplex.ofQ 1 - QComplex.ofQ (2 * norm) / (⟨x, y⟩ + QComplex.ofQ norm)

/-- Comparison `abs(z) < t` on complex values, expressed without square
roots as `normSq z < t²` (equivalent for `t > 0`, and the thresholds are
asserted positive before use). -/
def absLtQ (z : QComplex) (t : ℚ) : Bool :=
  decide (z.normSq < t * t)

/-- Model of `add_arc` followed by `_add_gridline`, keeping only the
data recorded in the arc list and the `assert` conditions:
`add_arc` asserts `p0 != p1`; `_add_gridline` asserts `ps >= 0` for real
arcs and `0 <= p0 < p1` for imaginary arcs.  `none` models an
`AssertionError`. -/
def addArcChk (arcType : ArcT) (ps p0 p1 : ℚ) : Option ArcRec :=
  if p0 = p1 then none
  else
    match arcType with
    | .real => if 0 ≤ ps then some ⟨.real, ps, p0, p1⟩ else none
    | .imag => if 0 ≤ p0 ∧ p0 < p1 then some ⟨.imag, ps, p0, p1⟩ else none

/-- Model of `check_fancy` as a boolean: the tick count must be odd and
each tick of the upper half plus the corresponding tick of the reversed
lower half must sum to less than `EPSILON` (note: the sum, not its
absolute value, is compared). -/
def checkFancyOk (yticks : List ℚ) : Bool :=
  let m := (yticks.length - 1) / 2
  decide (yticks.length % 2 = 1) &&
    (List.zipWith (· + ·) (yticks.drop m) ((yticks.take (m + 1)).reverse)).all
      (fun s => decide (s < EPSILON_Q))

/-- Exact symmetry of a tick set about zero (the spec's
"symmetric about zero": every tick's negation is also a tick). -/
def SymmetricTicks (l : List ℚ) : Prop := ∀ t ∈ l, -t ∈ l

instance (l : List ℚ) : Decidable (SymmetricTicks l) :=
  inferInstanceAs (Decidable (∀ t ∈ l, -t ∈ l))

/-- Inner `while k < len(tmp_yticks)` loop of the first (imaginary
direction) merge pass for a fixed real tick `xs`.  Each iteration either
advances `k` or deletes index `k`, so the supplied fuel
(`2 * length + 2` at the call site) always suffices.  Returns the arcs
appended, the updated tick list, and an error if an assertion fired. -/
def mergeYs (norm xs thrx : ℚ) : ℕ → List ℚ → ℕ → List ArcRec × List ℚ × Option GridError
  | 0, tmp, _ => ([], tmp, none)
  | fuel + 1, tmp, k =>
    if k < tmp.length then
      let y0 := tmp.getD (k - 1) 0
      let y1 := tmp.getD k 0
      if absLtQ (moebiusXY norm xs y0 - moebiusXY norm xs y1) thrx then
        match addArcChk .imag y1 0 xs, addArcChk .imag (-y1) 0 xs with
        | some a1, some a2 =>
          let r := mergeYs norm xs thrx fuel (tmp.eraseIdx k) k
          (a1 :: a2 :: r.1, r.2.1, r.2.2)
        | _, _ => ([], tmp, some .assertionError)
      else mergeYs norm xs thrx fuel tmp (k + 1)
    else ([], tmp, none)

/-- Outer `for xs in xticks` loop of the first merge pass; the working
copy `tmp_yticks` is threaded across iterations as in the source. -/
def mergeYOuter (norm thrx : ℚ) : List ℚ → List ℚ → List ArcRec × List ℚ × Option GridError
  | [], tmp => ([], tmp, none)
  | xs :: rest, tmp =>
    let r := mergeYs norm xs thrx (2 * tmp.length + 2) tmp 1
    match r.2.2 with
    | some e => (r.1, r.2.1, some e)
    | none =>
      let r2 := mergeYOuter norm thrx rest r.2.1
      (r.1 ++ r2.1, r2.2.1, r2.2.2)

/-- Inner `while k < len(xticks)` loop of the second (real direction)
merge pass for a fixed pair `(y0, y1)` of adjacent imaginary ticks. -/
def mergeXs (norm y0 y1 thry : ℚ) : ℕ → List ℚ → ℕ → List ArcRec × List ℚ × Option GridError
  | 0, xt, _ => ([], xt, none)
  | fuel + 1, xt, k =>
    if k < xt.length then
      let x0 := xt.getD (k - 1) 0
      let x1 := xt.getD k 0
      if absLtQ (moebiusXY norm x0 y1 - moebiusXY norm x1 y1) thry then
        match addArcChk .real x1 (-y0) y0 with
        | some a =>
          let r := mergeXs norm y0 y1 thry fuel (xt.eraseIdx k) k
          (a :: r.1, r.2.1, r.2.2)
        | none => ([], xt, some .assertionError)
      else mergeXs norm y0 y1 thry fuel xt (k + 1)
    else ([], xt, none)

/-- Outer `for i in range(1, len(yticks))` loop of the second merge
pass, iterating over adjacent pairs of the (upper-half) imaginary
ticks; `xticks` is threaded across iterations as in the source. -/
def mergeXOuter (norm thry : ℚ) : List (ℚ × ℚ) → List ℚ → List ArcRec × List ℚ × Option GridError
  | [], xt => ([], xt, none)
  | (y0, y1) :: rest, xt =>
    let r := mergeXs norm y0 y1 thry (2 * xt.length + 2) xt 1
    match r.2.2 with
    | some e => (r.1, r.2.1, some e)
    | none =>
      let r2 := mergeXOuter norm thry rest r.2.1
      (r.1 ++ r2.1, r2.2.1, r2.2.2)

/-- Sorting as performed by `np.sort`. -/
def sortQ (l : List ℚ) : List ℚ := List.insertionSort (· ≤ ·) l

/-- Model of the fancy major branch of `SmithAxes.grid` (with
`visible=True`): it first removes every previously drawn major arc, then
sorts the tick sets, asserts them nonempty, runs `check_fancy`, splits
and validates the thresholds, draws the zero-reactance line and runs the
two merge passes.  Returns the final grid state together with the error
that aborted the call, if any. -/
def gridMajorFancy (norm : ℚ) (s : GridState) (xticks yticks : List ℚ)
    (thr : ℚ × ℚ) : GridState × Option GridError :=
  let s1 : GridState := ⟨[], s.minorarcs⟩
  let xt := sortQ xticks
  let yt := sortQ yticks
  if xt.isEmpty ∨ yt.isEmpty then (s1, some .assertionError)
  else if ¬ checkFancyOk yt then (s1, some .preconditionViolation)
  else
    let yup := yt.drop ((yt.length - 1) / 2)
    if thr.1 ≤ 0 ∨ thr.2 ≤ 0 then (s1, some .assertionError)
    else
      let thrx := thr.1 / 1000
      let thry := thr.2 / 1000
      match addArcChk .imag (yup.getD 0 0) 0 INF_Q with
      | none => (s1, some .assertionError)
      | some zeroArc =>
        let r1 := mergeYOuter norm thrx xt yup
        match r1.2.2 with
        | some e => (⟨zeroArc :: r1.1, s.minorarcs⟩, some e)
        | none =>
          let r2 := mergeXOuter norm thry (yup.zip (yup.drop 1)) xt
          (⟨zeroArc :: r1.1 ++ r2.1, s.minorarcs⟩, r2.2.2)

/-! Generic embedding of `RealMaxNLocator.nice_round` and
`RealMaxNLocator.tick_values` (shared by `ImagMaxNLocator` through
inheritance).  The embedding is polymorphic over a linear ordered field
with a floor so that the real-axis locator can be instantiated
computably at `ℚ` and the imaginary-axis locator (which composes with
`np.angle`/`ang_to_c`) at `ℝ`. -/

/-- Round-half-to-even to an integer, the behavior of `np.round` with
`decimals=0` (modelled on exact values). -/
def npRoundInt {α : Type} [LinearOrderedField α] [FloorRing α] (x : α) : ℤ :=
  if Int.fract x < 1 / 2 then ⌊x⌋
  else if 1 / 2 < Int.fract x then ⌊x⌋ + 1
  else if ⌊x⌋ % 2 = 0 then ⌊x⌋ else ⌊x⌋ + 1

/-- Value-level `np.round(x)`. -/
def npRound {α : Type} [LinearOrderedField α] [FloorRing α] (x : α) : α :=
  (npRoundInt x : ℤ)

/-- Value-level `np.round(x, 1)` (round half to even at one decimal). -/
def npRound1 {α : Type} [LinearOrderedField α] [FloorRing α] (x : α) : α :=
  ((npRoundInt (x * 10) : ℤ) : α) / 10

/-- Python float modulo `x % y` (sign follows the divisor). -/
def fmodF {α : Type} [LinearOrderedField α] [FloorRing α] (x y : α) : α :=
  x - y * ⌊x / y⌋

/-- The `EPSILON = 1e-7` constant in the ambient field. -/
def epsF (α : Type) [LinearOrderedField α] : α := 1 / 10 ^ 7

/-- The `exp` local of `nice_round`: `np.ceil(np.log10(|num| + EPSILON))`
— for positive arguments this is the integer `⌈log₁₀ t⌉`, i.e.
`Int.clog 10 t` — followed by the leading-zero fix `if exp < 1: exp += 1`. -/
def niceExp {α : Type} [LinearOrderedField α] [FloorRing α] (num : α) : ℤ :=
  let exp0 : ℤ := Int.clog 10 (|num| + epsF α)
  if exp0 < 1 then exp0 + 1 else exp0

/-- The initial `norm` local of `nice_round`:
`10 ** -(exp - precision)`. -/
def niceNorm0 {α : Type} [LinearOrderedField α] [FloorRing α] (p : ℕ) (num : α) : α :=
  10 ^ ((p : ℤ) - niceExp num)

/-- The `norm` local of `nice_round` after the magnitude adjustment
(doubled below `3.3`, divided by ten above `50`; the comparison uses the
pre-adjustment `num * norm`). -/
def niceNorm {α : Type} [LinearOrderedField α] [FloorRing α] (p : ℕ) (num : α) : α :=
  let normed : α := num * niceNorm0 p num
  if normed < 33 / 10 then niceNorm0 p num * 2
  else if 50 < normed then niceNorm0 p num / 10 else niceNorm0 p num

/-- Model of `RealMaxNLocator.nice_round`: inside the `(1, 9)` window of
`num_normed % 10` round down (`np.floor`) or up (`np.ceil`) according to
`down`; outside it, first nudge `num` down by half a unit when
`num_normed % 10` is within `EPSILON` of `1`, then round half-to-even
(`np.round`).  The rounded value of `np.round(num * norm, 1)` is divided
back by `norm`. -/
def niceRound {α : Type} [LinearOrderedField α] [FloorRing α]
    (p : ℕ) (num : α) (down : Bool) : α :=
  let normed : α := num * niceNorm0 p num
  if 1 < fmodF normed 10 ∧ fmodF normed 10 < 9 then
    (if down then ((⌊npRound1 (num * niceNorm p num)⌋ : ℤ) : α)
     else ((⌈npRound1 (num * niceNorm p num)⌉ : ℤ) : α)) / niceNorm p num
  else
    let num1 :=
      if |fmodF normed 10 - 1| < epsF α then num - (1 / 2) / niceNorm p num else num
    npRound (npRound1 (num1 * niceNorm p num)) / niceNorm p num

/-- The virtual methods of a locator (`transform`, `invert`,
`out_of_range`) together with its `steps` and `precision`
attributes. -/
structure TickOps (α : Type) where
  transform : α → α
  invert : α → α
  oor : α → Bool
  steps : ℕ
  precision : ℕ

/-- One direction of the outward walk in `tick_values`
(`for sgn, side, end in [[1, False, tmax], [-1, True, tmin]]`).
The Python `while True` loop carries no bound, so the model takes fuel
and truncates the appended list when it runs out — a sound
over-approximation for the invariant claims, since every prefix of
appended values is still accounted for.  The last component threads the
`d0` capture (`if d0 is None: d0 = d`), whose final value seeds the
second direction. -/
def walkDir {α : Type} [LinearOrderedField α] [FloorRing α] (ops : TickOps α)
    (side : Bool) (sgn endv : α) : ℕ → α → α → Option α → List α × Option α
  | 0, _, _, d0 => ([], d0)
  | fuel + 1, last, d, d0 =>
    let new := last + d * sgn
    if ops.oor new ∨ |endv - new| < d / 2 then ([], d0)
    else
      let new2 := ops.transform (niceRound ops.precision (ops.invert new) side)
      let d2 := |new2 - last|
      let d02 := match d0 with
        | some v => some v
        | none => some d2
      let r := walkDir ops side sgn endv fuel new2 d2 d02
      (new2 :: r.1, r.2)

/-- Model of `RealMaxNLocator.tick_values(vmin, vmax)`: the transformed
endpoints and the nicely rounded midpoint are always included, then the
walk runs upward and downward from the midpoint, and the collected
values are inverse-transformed and sorted.  When the upward walk appends
nothing, `d0` stays `None` and the Python downward walk raises a
`TypeError` on `last + d * sgn`; the model then contributes no downward
values (again an over-approximation by truncation — the source produces
no output at all on that path). -/
def tickValuesG {α : Type} [LinearOrderedField α] [FloorRing α]
    (ops : TickOps α) (fuel : ℕ) (vmin vmax : α) : List α :=
  let tmin := ops.transform vmin
  let tmax := ops.transform vmax
  let mean := ops.transform (niceRound ops.precision (ops.invert ((tmin + tmax) / 2)) true)
  let d0 := |tmin - tmax| / (ops.steps + 1)
  let up := walkDir ops false 1 tmax fuel mean d0 none
  let down : List α :=
    match up.2 with
    | none => []
    | some dStart => (walkDir ops true (-1) tmin fuel mean dStart none).1
  List.insertionSort (· ≤ ·) (List.map ops.invert (tmin :: tmax :: mean :: (up.1 ++ down)))

/-- `RealMaxNLocator.transform`: the scalar Möbius transform
`moebius_z(x)` with normalization constant `k`. -/
def realTransformQ (k x : ℚ) : ℚ := 1 - 2 * k / (x + k)

/-- `RealMaxNLocator.invert`: the scalar inverse Möbius transform
`moebius_inv_z(w)` with its pole nudge at `w = 1`. -/
def realInvertQ (k w : ℚ) : ℚ :=
  let w2 := if w = 1 then 1 - EPSILON_Q else w
  k * (1 + w2) / (1 - w2)

/-- `RealMaxNLocator.out_of_range`: `abs(x) > 1`. -/
def realOorQ (x : ℚ) : Bool := decide (1 < |x|)

/-- The real-axis locator's virtual method table. -/
def realOps (k : ℚ) (n p : ℕ) : TickOps ℚ :=
  ⟨realTransformQ k, realInvertQ k, realOorQ, n, p⟩

/-- The real-axis locator output `RealMaxNLocator.__call__`, i.e.
`tick_values(0, _inf)` with `_inf = 1e9`. -/
def realTicks (fuel n p : ℕ) (k : ℚ) : List ℚ :=
  tickValuesG (realOps k n p) fuel 0 INF_Q

/-- The mandatory mid tick of the real-axis locator: the nicely rounded
inverse transform of the arithmetic mean of the Möbius-transformed
range endpoints. -/
def realMidTick (p : ℕ) (k : ℚ) : ℚ :=
  niceRound p (realInvertQ k ((realTransformQ k 0 + realTransformQ k INF_Q) / 2)) true

/-! Exact real/complex embedding of the transforms that involve
`np.angle`, `np.cos` and `np.sin`. -/

noncomputable section

/-- The `EPSILON = 1e-7` constant over `ℝ`. -/
def EPS_R : ℝ := 1 / 10 ^ 7

/-- The `INF = 1e9` sentinel over `ℝ`. -/
def INF_R : ℝ := 10 ^ 9

/-- `smithhelper.moebius_z`: the forward Möbius transform
`w = 1 - 2 * norm / (z + norm)`. -/
def moebiusC (k : ℝ) (z : ℂ) : ℂ := 1 - 2 * (k : ℂ) / (z + (k : ℂ))

/-- The pole guard of `smithhelper.moebius_inv_z`:
`np.where(z == 1, 1 - EPSILON, z)`. -/
def nudgeC (w : ℂ) : ℂ := if w = 1 then 1 - (EPS_R : ℂ) else w

/-- `smithhelper.moebius_inv_z`: the inverse Möbius transform
`z = norm * (1 + w) / (1 - w)` applied after the pole guard. -/
def moebiusInvC (k : ℝ) (w : ℂ) : ℂ :=
  (k : ℂ) * (1 + nudgeC w) / (1 - nudgeC w)

/-! Model of the gridline branch of
`SmithAxes.MoebiusTransform.transform_path_non_affine`
(claims C3 and C4). -/

/-- The per-axes configuration read by the path transform:
`self._axes._normalize` and `self._axes._get_key("axes.impedance")`. -/
structure AxCfg where
  normalize : Bool
  impedance : ℝ

/-- The normalization constant used by `SmithAxes.moebius_z`:
`1` when normalized, else the reference impedance. -/
def axNorm (P : AxCfg) : ℝ := if P.normalize then 1 else P.impedance

/-- The `scale` constant of the `y_gridline` branch:
`1j` when normalized, else `1j * impedance`. -/
def gridScale (P : AxCfg) : ℂ :=
  if P.normalize then Complex.I else Complex.I * (P.impedance : ℂ)

/-- A plot-space vertex as a complex number. -/
def mkC (v : ℝ × ℝ) : ℂ := ⟨v.1, v.2⟩

/-- The gridline tag carried in `path._interpolation_steps`. -/
inductive GridTag where
  | xline
  | yline

/-- The arc center `zm` computed by the path transform: the midpoint
formula `0.5 * (1 + moebius_z(x[0]))` for constant-resistance lines and
`1 + scale / y[0]` for constant-reactance lines. -/
def gridZm (P : AxCfg) (tag : GridTag) (v0 : ℝ × ℝ) : ℂ :=
  match tag with
  | .xline => (1 / 2 : ℂ) * (1 + moebiusC (axNorm P) (v0.1 : ℂ))
  | .yline => 1 + gridScale P / (v0.2 : ℂ)

/-- The arc diameter `d = 2 * abs(zm - 1)`. -/
def gridDiam (P : AxCfg) (tag : GridTag) (v0 : ℝ × ℝ) : ℝ :=
  2 * Complex.abs (gridZm P tag v0 - 1)

/-- `np.angle(z, deg=True)`: the principal argument in degrees. -/
def angleDeg (z : ℂ) : ℝ := z.arg * (180 / Real.pi)

/-- Python float modulo `x % 360`. -/
def mod360 (x : ℝ) : ℝ := x - 360 * ⌊x / 360⌋

/-- The pair `(ang0, ang1) = np.angle(z - zm, deg=True) % 360` of the
path transform, before the conditional swap. -/
def rawAngles (P : AxCfg) (tag : GridTag) (v0 v1 : ℝ × ℝ) : ℝ × ℝ :=
  let zm := gridZm P tag v0
  (mod360 (angleDeg (moebiusC (axNorm P) (mkC v0) - zm)),
   mod360 (angleDeg (moebiusC (axNorm P) (mkC v1) - zm)))

/-- The conditional swap `if ang0 > ang1: ang0, ang1 = ang1, ang0`. -/
def canonAngles (a : ℝ × ℝ) : ℝ × ℝ := if a.1 > a.2 then (a.2, a.1) else a

/-- The patch transform of the constructed `Arc`: scale the unit-circle
arc path by `d/2` in both directions and translate it to `zm`. -/
def patchTf (zm : ℂ) (d : ℝ) (p : ℝ × ℝ) : ℝ × ℝ :=
  (zm.re + d / 2 * p.1, zm.im + d / 2 * p.2)

/-- Model of the gridline branch of `transform_path_non_affine`.
`arcVerts a0 a1` stands for the vertex list of `Path.arc(a0, a1)` —
a matplotlib (host library) primitive kept abstract; the branch scales
and translates those vertices with the patch transform and reverses the
vertex order exactly when the angles were swapped. -/
def transformGridline (arcVerts : ℝ → ℝ → List (ℝ × ℝ)) (P : AxCfg)
    (tag : GridTag) (v0 v1 : ℝ × ℝ) : List (ℝ × ℝ) :=
  let zm := gridZm P tag v0
  let a := rawAngles P tag v0 v1
  let c := canonAngles a
  let verts := (arcVerts c.1 c.2).map (patchTf zm (gridDiam P tag v0))
  if a.1 > a.2 then verts.reverse else verts

/-! Model of `SmithAxes.PolarTranslate.transform_non_affine`
(claim C9). -/

/-- The `_translate` closure: shift a point radially outward from the
chart center `c` by `pad`, with the vertical component scaled by
`pad + 0.5 * font_size`; the direction is
`np.angle(complex(x - x0, y - y0))`. -/
def polarTranslate (pad fs : ℝ) (c p : ℝ × ℝ) : ℝ × ℝ :=
  let ang := Complex.arg ⟨p.1 - c.1, p.2 - c.2⟩
  (p.1 + Real.cos ang * pad, p.2 + Real.sin ang * (pad + 1 / 2 * fs))

/-! Model of `ImagMaxNLocator` (claim C5): the inherited `tick_values`
with overridden `transform`, `invert` and `out_of_range`, followed by
the mirror concatenation of `__call__`. -/

/-- `smithhelper.ang_to_c` with unit radius: `cos a + i sin a`. -/
def angToC (a : ℝ) : ℂ := ⟨Real.cos a, Real.sin a⟩

/-- `ImagMaxNLocator.transform`:
`π - np.angle(moebius_z(x * 1j))`. -/
def imagTransformR (k x : ℝ) : ℝ :=
  Real.pi - (moebiusC k ((x : ℂ) * Complex.I)).arg

/-- `ImagMaxNLocator.invert`:
`imag(-moebius_inv_z(ang_to_c(π + x)))`. -/
def imagInvertR (k x : ℝ) : ℝ :=
  (-(moebiusInvC k (angToC (Real.pi + x)))).im

/-- `ImagMaxNLocator.out_of_range`: `not 0 <= x <= π`. -/
def imagOorR (x : ℝ) : Bool := decide (¬ (0 ≤ x ∧ x ≤ Real.pi))

/-- The imaginary-axis locator's virtual method table; `steps` is the
`n // 2` stored by its constructor. -/
def imagOps (k : ℝ) (steps p : ℕ) : TickOps ℝ :=
  ⟨imagTransformR k, imagInvertR k, imagOorR, steps, p⟩

/-- The positive half `tick_values(0, _inf)` computed by
`ImagMaxNLocator.__call__`. -/
def imagTickVals (fuel steps p : ℕ) (k : ℝ) : List ℝ :=
  tickValuesG (imagOps k steps p) fuel 0 INF_R

/-- The full imaginary-axis locator output:
`np.concatenate((-tmp[:0:-1], tmp))` — the positive half mirrored
across zero. -/
def imagCall (fuel steps p : ℕ) (k : ℝ) : List ℝ :=
  let tmp := imagTickVals fuel steps p k
  ((tmp.drop 1).reverse.map (fun t => -t)) ++ tmp

end

/-! Theorems.  Helper lemmas come first, then one named theorem per
claim (with witness / counterexample theorems where required). -/

/-- Claim C7: the conversion utility fails exactly as specified on
malformed input — `ArgumentError` for zero or more than two positional
arguments, `ShapeError` for a single array argument of more than two
dimensions or a two-dimensional argument whose first dimension is not
exactly 2, and `SizeMismatchError` for two array arguments of different
lengths. -/
theorem xy_to_z_error_contract :
    (xy_to_z [] = .error .argumentError) ∧
    (∀ a b c rest, xy_to_z (a :: b :: c :: rest) = .error .argumentError) ∧
    (∀ t, xy_to_z [.array (.arr3 t)] = .error .shapeError) ∧
    (∀ rows, rows.length ≠ 2 → xy_to_z [.array (.arr2 rows)] = .error .shapeError) ∧
    (∀ A B, pyLen A ≠ pyLen B →
      xy_to_z [.array A, .array B] = .error .sizeMismatchError) := by
  refine ⟨rfl, fun a b c rest => rfl, fun t => rfl, ?_, ?_⟩
  · intro rows h
    match rows with
    | [] => rfl
    | [_] => rfl
    | [_, _] => exact absurd rfl h
    | _ :: _ :: _ :: _ => rfl
  · intro A B h
    simp only [xy_to_z, if_neg h]

/-- Witness for C7 at concrete malformed inputs. -/
theorem xy_to_z_error_contract_witness :
    xy_to_z [.array (.arr2 [[.num 0]])] = .error .shapeError ∧
    xy_to_z [.array (.arr1 [.num 1]), .array (.arr1 [])] = .error .sizeMismatchError :=
  ⟨xy_to_z_error_contract.2.2.2.1 [[.num 0]] (by decide),
   xy_to_z_error_contract.2.2.2.2 (.arr1 [.num 1]) (.arr1 []) (by decide)⟩

/-- Claim C8: the conversion utility maps the success edge cases as
specified — the empty list round-trips to an empty array instead of
raising, and `[[0.0], [""]]` coerces the empty string to `0.0` and
returns the singleton complex array `[0+0j]`. -/
theorem xy_to_z_edge_cases :
    xy_to_z [.array (.arr1 [])] = .ok (.arr1 []) ∧
    xy_to_z [.array (.arr2 [[.num 0], [.str ""]])] = .ok (.arrC [⟨0, 0⟩]) := by
  refine ⟨rfl, ?_⟩
  have h : ((0 : ℕ) : ℚ) + ((0 : ℕ) : ℚ) / 10 ^ (1 : ℕ) = 0 := by norm_num
  calc xy_to_z [.array (.arr2 [[.num 0], [.str ""]])]
      = .ok (.arrC [⟨0, ((0 : ℕ) : ℚ) + ((0 : ℕ) : ℚ) / 10 ^ (1 : ℕ)⟩]) := rfl
    _ = .ok (.arrC [⟨0, 0⟩]) := by rw [h]

/-- Claim C10: a gridline is tagged `y_gridline` exactly when it is an
imaginary arc whose reactance `ps` satisfies `|ps| > 1e-7` (the
zero-reactance line keeps the default linear tag, real arcs are always
tagged `x_gridline`), and consequently every `y_gridline` path carries a
nonzero constant `y` coordinate, so the division `scale / y[0]` in the
path transform's center computation has a nonzero denominator. -/
theorem add_gridline_tagging :
    (∀ ps p0 p1 : ℚ, 0 ≤ p0 → p0 < p1 →
      (((addGridline .imag ps p0 p1).tag = .yGridline) ↔ EPSILON_Q < |ps|)) ∧
    (∀ ps p0 p1 : ℚ, 0 ≤ ps → (addGridline .real ps p0 p1).tag = .xGridline) ∧
    (∀ ps p0 p1 : ℚ, (addGridline .imag ps p0 p1).tag = .yGridline →
      ps ≠ 0 ∧ (∀ v ∈ (addGridline .imag ps p0 p1).verts, v.2 = ps) ∧
        (((ps : ℝ) : ℂ) ≠ 0)) := by
  refine ⟨?_, fun ps p0 p1 _ => rfl, ?_⟩
  · intro ps p0 p1 _ _
    simp only [addGridline]
    split
    · simpa using ‹EPSILON_Q < |ps|›
    · simp only [reduceCtorEq, false_iff]
      exact ‹¬ EPSILON_Q < |ps|›
  · intro ps p0 p1 htag
    have hps : EPSILON_Q < |ps| := by
      by_contra hc
      simp only [addGridline, if_neg hc] at htag
      exact LineTag.noConfusion htag
    have hne : ps ≠ 0 := by
      intro h0
      rw [h0] at hps
      norm_num [EPSILON_Q] at hps
    refine ⟨hne, ?_, ?_⟩
    · intro v hv
      simp only [addGridline, List.mem_cons, List.mem_singleton] at hv
      rcases hv with h | h | h
      · rw [h]
      · rw [h]
      · cases h
    · intro hc
      apply hne
      exact_mod_cast hc

/-- Witness for C10 at a concrete reactance. -/
theorem add_gridline_tagging_witness :
    ((addGridline .imag 1 0 1).tag = .yGridline ↔ EPSILON_Q < |(1 : ℚ)|) ∧
    (addGridline .real 1 0 1).tag = .xGridline :=
  ⟨add_gridline_tagging.1 1 0 1 (by decide) (by decide),
   add_gridline_tagging.2.1 1 0 1 (by decide)⟩

/-- Claim C1: for every positive normalization constant `k` and every
complex `z` whose forward image is not the pole value `1`, the inverse
Möbius transform undoes the forward transform exactly; moreover the
inverse's pole guard replaces an input equal to `1` by `1 - 1e-7`, so
the divisor `1 - w` is never zero. -/
theorem moebius_roundtrip (z : ℂ) (k : ℝ) (hk : 0 < k)
    (h : moebiusC k z ≠ 1) :
    moebiusInvC k (moebiusC k z) = z ∧
    (∀ w : ℂ, (1 : ℂ) - nudgeC w ≠ 0) ∧
    nudgeC 1 = 1 - (EPS_R : ℂ) := by
  have hk0 : (k : ℂ) ≠ 0 := Complex.ofReal_ne_zero.mpr hk.ne'
  have hzk : z + (k : ℂ) ≠ 0 := by
    intro hc
    apply h
    simp [moebiusC, hc]
  have hnudge : ∀ w : ℂ, (1 : ℂ) - nudgeC w ≠ 0 := by
    intro w
    by_cases hw : w = 1
    · rw [nudgeC, if_pos hw]
      have : (EPS_R : ℂ) ≠ 0 := by
        rw [Complex.ofReal_ne_zero]
        norm_num [EPS_R]
      simpa using this
    · rw [nudgeC, if_neg hw]
      exact sub_ne_zero.mpr (fun hc => hw hc.symm)
  refine ⟨?_, hnudge, by rw [nudgeC, if_pos rfl]⟩
  rw [moebiusInvC, nudgeC, if_neg h, moebiusC]
  have h2 : (1 : ℂ) - (1 - 2 * (k : ℂ) / (z + (k : ℂ))) = 2 * k / (z + k) := by ring
  field_simp
  ring

/-- Witness for C1 at `z = 1`, `k = 1`. -/
theorem moebius_roundtrip_witness :
    moebiusInvC 1 (moebiusC 1 1) = 1 :=
  (moebius_roundtrip 1 1 one_pos (by norm_num [moebiusC])).1

/-- Helper: the complex number built from a vertex pair, written with
`I`. -/
theorem mkC_eq (v : ℝ × ℝ) : mkC v = (v.1 : ℂ) + (v.2 : ℝ) * Complex.I := by
  apply Complex.ext <;> simp [mkC]

/-- Claim C9 counterexample: a point exactly at the chart center is not
left fixed — `np.angle(0) = 0`, so it is translated horizontally by the
full pad distance instead of receiving zero displacement. -/
theorem polar_translate_center_counterexample :
    polarTranslate 1 0 (0, 0) (0, 0) = (1, 0) ∧
    ((1 : ℝ), (0 : ℝ)) ≠ ((0 : ℝ), (0 : ℝ)) := by
  constructor
  · have h0 : (⟨(0 : ℝ), (0 : ℝ)⟩ : ℂ) = 0 := by
      apply Complex.ext <;> norm_num
    simp [polarTranslate, h0]
  · intro h
    exact one_ne_zero (congrArg Prod.fst h)

/-- Claim C9 (amended): the radial label-offset transform shifts a point
by `pad` times the direction cosine horizontally and by
`pad + font_size/2` times the direction sine vertically; with no font
contribution the displacement has length exactly `pad`; and a point
exactly at the chart center gets direction angle `0` (the `np.angle(0)`
convention), hence a horizontal shift by `pad` rather than a zero
displacement. -/
theorem polar_translate_amended (pad fs : ℝ) (c p : ℝ × ℝ) :
    (polarTranslate pad fs c p =
      (p.1 + Real.cos (Complex.arg ⟨p.1 - c.1, p.2 - c.2⟩) * pad,
       p.2 + Real.sin (Complex.arg ⟨p.1 - c.1, p.2 - c.2⟩) * (pad + 1 / 2 * fs))) ∧
    (Real.sqrt (((polarTranslate pad 0 c p).1 - p.1) ^ 2 +
        ((polarTranslate pad 0 c p).2 - p.2) ^ 2) = |pad|) ∧
    polarTranslate pad fs c c = (c.1 + pad, c.2) := by
  refine ⟨rfl, ?_, ?_⟩
  · have harg : ∀ a : ℝ,
        (p.1 + Real.cos a * pad - p.1) ^ 2 + (p.2 + Real.sin a * (pad + 1 / 2 * 0) - p.2) ^ 2
          = pad ^ 2 := by
      intro a
      have hc := Real.sin_sq_add_cos_sq a
      ring_nf
      nlinarith [hc]
    rw [polarTranslate]
    rw [harg]
    exact Real.sqrt_sq_eq_abs pad
  · have h0 : (⟨(0 : ℝ), (0 : ℝ)⟩ : ℂ) = 0 := by
      apply Complex.ext <;> norm_num
    simp [polarTranslate, sub_self, h0]

/-- Helper: the Python float modulo by 360 lands in `[0, 360)`. -/
theorem mod360_mem (x : ℝ) : 0 ≤ mod360 x ∧ mod360 x < 360 := by
  have h : mod360 x = 360 * Int.fract (x / 360) := by
    rw [mod360, Int.fract]
    field_simp
  constructor
  · rw [h]
    exact mul_nonneg (by norm_num) (Int.fract_nonneg _)
  · rw [h]
    nlinarith [Int.fract_lt_one (x / 360), Int.fract_nonneg (x / 360)]

/-- Claim C3: for every gridline path accepted by the path transform,
both raw arc angles are normalized into `[0°, 360°)`, the conditional
swap establishes `angleStart ≤ angleEnd`, and when a swap occurred the
output vertex sequence is the reverse of the generated arc vertices, so
reversing it reproduces the original vertex order. -/
theorem grid_arc_canonicalization (arcVerts : ℝ → ℝ → List (ℝ × ℝ)) (P : AxCfg)
    (tag : GridTag) (v0 v1 : ℝ × ℝ)
    (_hx : tag = .xline → v0.1 = v1.1) (_hy : tag = .yline → v0.2 = v1.2) :
    (0 ≤ (rawAngles P tag v0 v1).1 ∧ (rawAngles P tag v0 v1).1 < 360) ∧
    (0 ≤ (rawAngles P tag v0 v1).2 ∧ (rawAngles P tag v0 v1).2 < 360) ∧
    (canonAngles (rawAngles P tag v0 v1)).1 ≤ (canonAngles (rawAngles P tag v0 v1)).2 ∧
    ((rawAngles P tag v0 v1).2 < (rawAngles P tag v0 v1).1 →
      transformGridline arcVerts P tag v0 v1 =
        ((arcVerts (canonAngles (rawAngles P tag v0 v1)).1
            (canonAngles (rawAngles P tag v0 v1)).2).map
          (patchTf (gridZm P tag v0) (gridDiam P tag v0))).reverse ∧
      (transformGridline arcVerts P tag v0 v1).reverse =
        (arcVerts (canonAngles (rawAngles P tag v0 v1)).1
            (canonAngles (rawAngles P tag v0 v1)).2).map
          (patchTf (gridZm P tag v0) (gridDiam P tag v0))) := by
  refine ⟨?_, ?_, ?_, ?_⟩
  · exact mod360_mem _
  · exact mod360_mem _
  · rw [canonAngles]
    split
    · exact le_of_lt (by assumption)
    · exact le_of_not_lt (by assumption)
  · intro hrev
    have hgt : (rawAngles P tag v0 v1).1 > (rawAngles P tag v0 v1).2 := hrev
    constructor
    · rw [transformGridline]
      simp only [if_pos hgt]
    · rw [transformGridline]
      simp only [if_pos hgt, List.reverse_reverse]

/-- Witness for C3 at a concrete constant-resistance gridline. -/
theorem grid_arc_canonicalization_witness :
    (0 ≤ (rawAngles ⟨true, 50⟩ .xline (1, 0) (1, 2)).1 ∧
      (rawAngles ⟨true, 50⟩ .xline (1, 0) (1, 2)).1 < 360) ∧
    (0 ≤ (rawAngles ⟨true, 50⟩ .xline (1, 0) (1, 2)).2 ∧
      (rawAngles ⟨true, 50⟩ .xline (1, 0) (1, 2)).2 < 360) ∧
    (canonAngles (rawAngles ⟨true, 50⟩ .xline (1, 0) (1, 2))).1 ≤
      (canonAngles (rawAngles ⟨true, 50⟩ .xline (1, 0) (1, 2))).2 ∧
    ((rawAngles ⟨true, 50⟩ .xline (1, 0) (1, 2)).2 <
        (rawAngles ⟨true, 50⟩ .xline (1, 0) (1, 2)).1 →
      transformGridline (fun _ _ => []) ⟨true, 50⟩ .xline (1, 0) (1, 2) =
        ((((fun (_ _ : ℝ) => ([] : List (ℝ × ℝ)))
              (canonAngles (rawAngles ⟨true, 50⟩ .xline (1, 0) (1, 2))).1
              (canonAngles (rawAngles ⟨true, 50⟩ .xline (1, 0) (1, 2))).2)).map
          (patchTf (gridZm ⟨true, 50⟩ .xline (1, 0)) (gridDiam ⟨true, 50⟩ .xline (1, 0)))).reverse ∧
      (transformGridline (fun _ _ => []) ⟨true, 50⟩ .xline (1, 0) (1, 2)).reverse =
        (((fun (_ _ : ℝ) => ([] : List (ℝ × ℝ)))
              (canonAngles (rawAngles ⟨true, 50⟩ .xline (1, 0) (1, 2))).1
              (canonAngles (rawAngles ⟨true, 50⟩ .xline (1, 0) (1, 2))).2)).map
          (patchTf (gridZm ⟨true, 50⟩ .xline (1, 0)) (gridDiam ⟨true, 50⟩ .xline (1, 0)))) :=
  grid_arc_canonicalization (fun _ _ => []) ⟨true, 50⟩ .xline (1, 0) (1, 2)
    (fun _ => rfl) (fun h => GridTag.noConfusion h)

/-- Helper: complex numbers with equal squared modulus have equal
modulus. -/
theorem abs_eq_of_normSq_eq {z w : ℂ} (h : Complex.normSq z = Complex.normSq w) :
    Complex.abs z = Complex.abs w := by
  rw [Complex.abs_apply, Complex.abs_apply, h]

/-- Helper: conjugation in component form. -/
theorem conj_mk_eq (a b : ℝ) :
    (starRingEnd ℂ) ((a : ℂ) + (b : ℝ) * Complex.I) = (a : ℂ) - (b : ℝ) * Complex.I := by
  simp [Complex.ext_iff]

/-- Helper: the modulus is invariant under negating the imaginary
part. -/
theorem abs_sub_mul_I (a b : ℝ) :
    Complex.abs ((a : ℂ) - (b : ℝ) * Complex.I) = Complex.abs ((a : ℂ) + (b : ℝ) * Complex.I) := by
  rw [← conj_mk_eq]
  exact Complex.abs_conj _

/-- Claim C4: for every x-gridline (two vertices sharing resistance
`x0 ≥ 0`), the diameter `2 * |zm - 1|` computed by the path transform
from the midpoint center `zm = 0.5 * (1 + M(x0))` equals twice the
distance from `zm` to each Möbius-transformed endpoint; likewise for
every y-gridline (two vertices sharing a nonzero reactance `y0`) with
center `zm = 1 + scale / y0`. -/
theorem grid_arc_diameter (P : AxCfg) (hk : 0 < axNorm P) :
    (∀ x0 y0 y1 : ℝ, 0 ≤ x0 →
      gridDiam P .xline (x0, y0) =
          2 * Complex.abs (gridZm P .xline (x0, y0) - moebiusC (axNorm P) (mkC (x0, y0))) ∧
      gridDiam P .xline (x0, y0) =
          2 * Complex.abs (gridZm P .xline (x0, y0) - moebiusC (axNorm P) (mkC (x0, y1)))) ∧
    (∀ x0 x1 y0 : ℝ, y0 ≠ 0 →
      gridDiam P .yline (x0, y0) =
          2 * Complex.abs (gridZm P .yline (x0, y0) - moebiusC (axNorm P) (mkC (x0, y0))) ∧
      gridDiam P .yline (x0, y0) =
          2 * Complex.abs (gridZm P .yline (x0, y0) - moebiusC (axNorm P) (mkC (x1, y0)))) := by
  set k := axNorm P with hkdef
  constructor
  · -- x-gridline: the diameter formula holds for both endpoints.
    intro x0 y0 y1 hx0
    have ha : (0 : ℝ) < x0 + k := add_pos_of_nonneg_of_pos hx0 hk
    have haC : ((x0 : ℂ)) + (k : ℂ) ≠ 0 := by
      intro hzero
      have hre := congrArg Complex.re hzero
      simp at hre
      linarith
    have key : ∀ y : ℝ,
        Complex.abs (gridZm P .xline (x0, y0) - moebiusC k (mkC (x0, y))) =
          Complex.abs (gridZm P .xline (x0, y0) - 1) := by
      intro y
      have hden : (x0 : ℂ) + (y : ℝ) * Complex.I + (k : ℂ) ≠ 0 := by
        intro hzero
        have hre := congrArg Complex.re hzero
        simp at hre
        linarith
      have e1 : (gridZm P .xline (x0, y0) - moebiusC k (mkC (x0, y))) *
            (((x0 : ℂ) + (k : ℂ)) * ((x0 : ℂ) + (y : ℝ) * Complex.I + (k : ℂ))) =
          (k : ℂ) * (((x0 : ℂ) + (k : ℂ)) - (y : ℝ) * Complex.I) := by
        rw [gridZm, moebiusC, moebiusC, mkC_eq]
        field_simp
        ring_nf
        try simp only [Complex.I_sq]
        try ring
      have e2 : (gridZm P .xline (x0, y0) - 1) *
            (((x0 : ℂ) + (k : ℂ)) * ((x0 : ℂ) + (y : ℝ) * Complex.I + (k : ℂ))) =
          -((k : ℂ) * (((x0 : ℂ) + (k : ℂ)) + (y : ℝ) * Complex.I)) := by
        rw [gridZm, moebiusC]
        field_simp
        ring_nf
        try simp only [Complex.I_sq]
        try ring
      have a1 := congrArg Complex.abs e1
      have a2 := congrArg Complex.abs e2
      simp only [map_mul, map_neg_eq_map] at a1 a2
      have hconj : Complex.abs (((x0 : ℂ) + (k : ℂ)) - (y : ℝ) * Complex.I) =
          Complex.abs (((x0 : ℂ) + (k : ℂ)) + (y : ℝ) * Complex.I) := by
        have h1 : ((x0 : ℂ) + (k : ℂ)) - (y : ℝ) * Complex.I =
            ((x0 + k : ℝ) : ℂ) - (y : ℝ) * Complex.I := by push_cast; ring
        have h2 : ((x0 : ℂ) + (k : ℂ)) + (y : ℝ) * Complex.I =
            ((x0 + k : ℝ) : ℂ) + (y : ℝ) * Complex.I := by push_cast; ring
        rw [h1, h2, abs_sub_mul_I]
      rw [hconj] at a1
      have hD : Complex.abs ((x0 : ℂ) + (k : ℂ)) *
          Complex.abs ((x0 : ℂ) + (y : ℝ) * Complex.I + (k : ℂ)) ≠ 0 :=
        mul_ne_zero ((map_ne_zero Complex.abs).mpr haC) ((map_ne_zero Complex.abs).mpr hden)
      exact mul_right_cancel₀ hD (a1.trans a2.symm)
    constructor
    · rw [gridDiam, key y0]
    · rw [gridDiam, key y1]
  · -- y-gridline: the diameter formula holds for both endpoints.
    intro x0 x1 y0 hy0
    have hy0C : ((y0 : ℝ) : ℂ) ≠ 0 := Complex.ofReal_ne_zero.mpr hy0
    have hscale : gridScale P = Complex.I * (k : ℂ) := by
      rw [hkdef, gridScale, axNorm]
      cases P.normalize <;> simp
    have key : ∀ x : ℝ,
        Complex.abs (gridZm P .yline (x0, y0) - moebiusC k (mkC (x, y0))) =
          Complex.abs (gridZm P .yline (x0, y0) - 1) := by
      intro x
      have hden : (x : ℂ) + (y0 : ℝ) * Complex.I + (k : ℂ) ≠ 0 := by
        intro hzero
        have him := congrArg Complex.im hzero
        simp at him
        exact hy0 him
      have e1 : (gridZm P .yline (x0, y0) - moebiusC k (mkC (x, y0))) *
            (((y0 : ℝ) : ℂ) * ((x : ℂ) + (y0 : ℝ) * Complex.I + (k : ℂ))) =
          (k : ℂ) * (((y0 : ℝ) : ℂ) + ((x : ℂ) + (k : ℂ)) * Complex.I) := by
        rw [gridZm, hscale, moebiusC, mkC_eq]
        field_simp
        ring_nf
        try simp only [Complex.I_sq]
        try ring
      have e2 : (gridZm P .yline (x0, y0) - 1) *
            (((y0 : ℝ) : ℂ) * ((x : ℂ) + (y0 : ℝ) * Complex.I + (k : ℂ))) =
          (k : ℂ) * Complex.I * ((x : ℂ) + (y0 : ℝ) * Complex.I + (k : ℂ)) := by
        rw [gridZm, hscale]
        field_simp
        ring_nf
        try simp only [Complex.I_sq]
        try ring
      have a1 := congrArg Complex.abs e1
      have a2 := congrArg Complex.abs e2
      simp only [map_mul] at a1 a2
      have hrot : ((y0 : ℝ) : ℂ) + ((x : ℂ) + (k : ℂ)) * Complex.I =
          Complex.I * (((x + k : ℝ) : ℂ) - (y0 : ℝ) * Complex.I) := by
        push_cast
        ring_nf
        simp only [Complex.I_sq]
        ring
      have hdenr : (x : ℂ) + (y0 : ℝ) * Complex.I + (k : ℂ) =
          ((x + k : ℝ) : ℂ) + (y0 : ℝ) * Complex.I := by
        push_cast
        ring
      have hconj : Complex.abs (((y0 : ℝ) : ℂ) + ((x : ℂ) + (k : ℂ)) * Complex.I) =
          Complex.abs ((x : ℂ) + (y0 : ℝ) * Complex.I + (k : ℂ)) := by
        rw [hrot, map_mul, Complex.abs_I, one_mul, abs_sub_mul_I, hdenr]
      rw [hconj] at a1
      have hIk : Complex.abs (k : ℂ) * Complex.abs Complex.I = Complex.abs (k : ℂ) := by
        rw [Complex.abs_I, mul_one]
      rw [hIk] at a2
      have hD : Complex.abs ((y0 : ℝ) : ℂ) *
          Complex.abs ((x : ℂ) + (y0 : ℝ) * Complex.I + (k : ℂ)) ≠ 0 :=
        mul_ne_zero ((map_ne_zero Complex.abs).mpr hy0C) ((map_ne_zero Complex.abs).mpr hden)
      exact mul_right_cancel₀ hD (a1.trans a2.symm)
    constructor
    · rw [gridDiam, key x0]
    · rw [gridDiam, key x1]

/-- Witness for C4 at a concrete configuration (normalized axes,
`x0 = 1` gridline and `y0 = 1` gridline). -/
theorem grid_arc_diameter_witness :
    gridDiam ⟨true, 50⟩ .xline (1, 0) =
        2 * Complex.abs (gridZm ⟨true, 50⟩ .xline (1, 0) -
          moebiusC (axNorm ⟨true, 50⟩) (mkC (1, 0))) ∧
    gridDiam ⟨true, 50⟩ .yline (0, 1) =
        2 * Complex.abs (gridZm ⟨true, 50⟩ .yline (0, 1) -
          moebiusC (axNorm ⟨true, 50⟩) (mkC (0, 1))) := by
  have hk : 0 < axNorm ⟨true, 50⟩ := by norm_num [axNorm]
  exact ⟨((grid_arc_diameter ⟨true, 50⟩ hk).1 1 0 0 (by norm_num)).1,
    ((grid_arc_diameter ⟨true, 50⟩ hk).2 0 0 1 (by norm_num)).1⟩

/-- Unfolding lemma for rational-complex addition. -/
theorem QComplex.add_def (a b c d : ℚ) :
    (⟨a, b⟩ + ⟨c, d⟩ : QComplex) = ⟨a + c, b + d⟩ := rfl

/-- Unfolding lemma for rational-complex subtraction. -/
theorem QComplex.sub_def (a b c d : ℚ) :
    (⟨a, b⟩ - ⟨c, d⟩ : QComplex) = ⟨a - c, b - d⟩ := rfl

/-- Unfolding lemma for rational-complex multiplication. -/
theorem QComplex.mul_def (a b c d : ℚ) :
    (⟨a, b⟩ * ⟨c, d⟩ : QComplex) = ⟨a * c - b * d, a * d + b * c⟩ := rfl

/-- Unfolding lemma for the rational-complex inverse. -/
theorem QComplex.inv_def (a b : ℚ) :
    (⟨a, b⟩ : QComplex)⁻¹ = ⟨a / (a * a + b * b), -b / (a * a + b * b)⟩ := rfl

/-- Unfolding lemma for rational-complex division. -/
theorem QComplex.div_def (x y : QComplex) : x / y = x * y⁻¹ := rfl

/-- Unfolding lemma for the rational-complex embedding of a rational. -/
theorem QComplex.ofQ_def (q : ℚ) : QComplex.ofQ q = ⟨q, 0⟩ := rfl

/-- Unfolding lemma for the squared modulus. -/
theorem QComplex.normSq_def (a b : ℚ) :
    QComplex.normSq ⟨a, b⟩ = a * a + b * b := rfl

/-- Helper: a sorted tick list is nonempty when its source is. -/
theorem sortQ_ne_nil {l : List ℚ} (h : l ≠ []) : sortQ l ≠ [] := by
  intro hs
  apply h
  have hp : (sortQ l).Perm l := List.perm_insertionSort _ _
  rw [hs] at hp
  exact hp.symm.eq_nil

/-- Claim C2 (amended): the fancy major grid construction first discards
every previously rendered major arc, and only then validates the
imaginary tick set; whenever the (sorted, nonempty) tick set fails the
one-sided symmetry check (even count, or some upper tick plus its
mirrored lower tick summing to `EPSILON` or more), it raises the
precondition violation before creating any arc — but at that point the
tier's previous arcs are already removed, so the prior major grid is not
preserved.  (Tick sets that are asymmetric with all mirrored sums below
`EPSILON` pass the check undetected; see the counterexample.) -/
theorem grid_fancy_precondition_amended (nrm : ℚ) (s : GridState)
    (xticks yticks : List ℚ) (thr : ℚ × ℚ)
    (hx : xticks ≠ []) (hy : yticks ≠ [])
    (hcheck : checkFancyOk (sortQ yticks) = false) :
    (gridMajorFancy nrm s xticks yticks thr).2 = some .preconditionViolation ∧
    (gridMajorFancy nrm s xticks yticks thr).1.majorarcs = [] ∧
    (gridMajorFancy nrm s xticks yticks thr).1.minorarcs = s.minorarcs := by
  have hx' : (sortQ xticks).isEmpty = false := by
    rw [List.isEmpty_eq_false_iff_exists_mem]
    rcases List.exists_mem_of_ne_nil _ (sortQ_ne_nil hx) with ⟨a, ha⟩
    exact ⟨a, ha⟩
  have hy' : (sortQ yticks).isEmpty = false := by
    rw [List.isEmpty_eq_false_iff_exists_mem]
    rcases List.exists_mem_of_ne_nil _ (sortQ_ne_nil hy) with ⟨a, ha⟩
    exact ⟨a, ha⟩
  rw [gridMajorFancy]
  have hcond : ¬ ((sortQ xticks).isEmpty = true ∨ (sortQ yticks).isEmpty = true) := by
    rw [hx', hy']
    simp
  rw [if_neg hcond, if_pos]
  · exact ⟨rfl, rfl, rfl⟩
  · rw [hcheck]
    simp

/-- Witness for C2's amended theorem: an even tick set fails the check
and the call aborts with the tier already cleared. -/
theorem grid_fancy_precondition_amended_witness :
    (gridMajorFancy 1 ⟨[⟨.real, 1, 0, 1⟩], [⟨.imag, 2, 0, 1⟩]⟩ [1] [1, 2] (1, 1)).2 =
        some .preconditionViolation ∧
    (gridMajorFancy 1 ⟨[⟨.real, 1, 0, 1⟩], [⟨.imag, 2, 0, 1⟩]⟩ [1] [1, 2] (1, 1)).1.majorarcs = [] ∧
    (gridMajorFancy 1 ⟨[⟨.real, 1, 0, 1⟩], [⟨.imag, 2, 0, 1⟩]⟩ [1] [1, 2] (1, 1)).1.minorarcs =
      (⟨[⟨.real, 1, 0, 1⟩], [⟨.imag, 2, 0, 1⟩]⟩ : GridState).minorarcs :=
  grid_fancy_precondition_amended 1 ⟨[⟨.real, 1, 0, 1⟩], [⟨.imag, 2, 0, 1⟩]⟩ [1] [1, 2] (1, 1)
    (by simp) (by simp)
    (by norm_num [checkFancyOk, sortQ, List.insertionSort, List.orderedInsert])

/-- Claim C2 counterexample.  First: the tick set `[-2, 0, 1]` is not
symmetric about zero, yet the fancy major grid construction does not
raise — the one-sided check `(upper + reversed lower < EPSILON).all()`
accepts it because the mirrored sums are negative — and an arc is
created.  Second: on a tick set that does fail the check, the error is
raised only after the previously rendered major arcs have been removed,
so the prior state is not left untouched. -/
theorem grid_fancy_counterexample :
    ¬ SymmetricTicks [-2, 0, 1] ∧
    (gridMajorFancy 1 ⟨[⟨.real, 1, 0, 1⟩], [⟨.imag, 2, 0, 1⟩]⟩ [0] [-2, 0, 1] (1, 1)).2 = none ∧
    (gridMajorFancy 1 ⟨[⟨.real, 1, 0, 1⟩], [⟨.imag, 2, 0, 1⟩]⟩ [0] [-2, 0, 1] (1, 1)).1.majorarcs =
      [⟨.imag, 0, 0, INF_Q⟩] ∧
    ¬ SymmetricTicks [1, 2, 3] ∧
    (gridMajorFancy 1 ⟨[⟨.real, 1, 0, 1⟩], [⟨.imag, 2, 0, 1⟩]⟩ [1, 2] [1, 2, 3] (1, 1)).2 =
      some .preconditionViolation ∧
    (gridMajorFancy 1 ⟨[⟨.real, 1, 0, 1⟩], [⟨.imag, 2, 0, 1⟩]⟩ [1, 2] [1, 2, 3] (1, 1)).1.majorarcs
      = [] ∧
    (⟨[⟨.real, 1, 0, 1⟩], [⟨.imag, 2, 0, 1⟩]⟩ : GridState).majorarcs ≠ [] := by
  refine ⟨?_, ?_, ?_, ?_, ?_, ?_, ?_⟩
  · intro h
    have := h 1 (by simp)
    simp at this
    norm_num at this
  · norm_num [gridMajorFancy, sortQ, List.insertionSort, List.orderedInsert, checkFancyOk,
      EPSILON_Q, INF_Q, mergeYOuter, mergeYs, mergeXOuter, mergeXs, addArcChk, absLtQ,
      moebiusXY, QComplex.ofQ_def, QComplex.add_def, QComplex.sub_def, QComplex.mul_def,
      QComplex.inv_def, QComplex.div_def, QComplex.normSq_def]
  · norm_num [gridMajorFancy, sortQ, List.insertionSort, List.orderedInsert, checkFancyOk,
      EPSILON_Q, INF_Q, mergeYOuter, mergeYs, mergeXOuter, mergeXs, addArcChk, absLtQ,
      moebiusXY, QComplex.ofQ_def, QComplex.add_def, QComplex.sub_def, QComplex.mul_def,
      QComplex.inv_def, QComplex.div_def, QComplex.normSq_def]
  · intro h
    have := h 3 (by simp)
    simp at this
    norm_num at this
  · norm_num [gridMajorFancy, sortQ, List.insertionSort, List.orderedInsert, checkFancyOk,
      EPSILON_Q]
  · norm_num [gridMajorFancy, sortQ, List.insertionSort, List.orderedInsert, checkFancyOk,
      EPSILON_Q]
  · simp

/-- Helper: round-half-even of a nonnegative value is nonnegative. -/
theorem npRoundInt_nonneg {α : Type} [LinearOrderedField α] [FloorRing α]
    {x : α} (h : 0 ≤ x) : 0 ≤ npRoundInt x := by
  have h0 : (0 : ℤ) ≤ ⌊x⌋ := Int.floor_nonneg.mpr h
  rw [npRoundInt]
  split_ifs <;> omega

/-- Helper: one-decimal rounding of a nonnegative value is
nonnegative. -/
theorem npRound1_nonneg {α : Type} [LinearOrderedField α] [FloorRing α]
    {x : α} (h : 0 ≤ x) : 0 ≤ npRound1 x := by
  rw [npRound1]
  apply div_nonneg _ (by norm_num)
  exact_mod_cast npRoundInt_nonneg (by positivity)

/-- Helper: `np.round` of a nonnegative value is nonnegative. -/
theorem npRound_nonneg {α : Type} [LinearOrderedField α] [FloorRing α]
    {x : α} (h : 0 ≤ x) : 0 ≤ npRound x := by
  rw [npRound]
  exact_mod_cast npRoundInt_nonneg h

/-- Helper: the Python float modulo of any value by a positive divisor
is nonnegative. -/
theorem fmodF_nonneg {α : Type} [LinearOrderedField α] [FloorRing α]
    (x : α) {y : α} (hy : 0 < y) : 0 ≤ fmodF x y := by
  have hid : fmodF x y = y * Int.fract (x / y) := by
    rw [fmodF, Int.fract]
    field_simp
  rw [hid]
  exact mul_nonneg hy.le (Int.fract_nonneg _)

/-- Helper: the Python float modulo by 10 of a nonnegative value does
not exceed the value. -/
theorem fmodF_le_self {α : Type} [LinearOrderedField α] [FloorRing α]
    {x : α} (h : 0 ≤ x) : fmodF x 10 ≤ x := by
  rw [fmodF]
  have h0 : (0 : ℤ) ≤ ⌊x / 10⌋ := Int.floor_nonneg.mpr (by positivity)
  have h1 : (0 : α) ≤ 10 * (⌊x / 10⌋ : α) := by
    have : (0 : α) ≤ (⌊x / 10⌋ : α) := by exact_mod_cast h0
    linarith
  linarith

/-- Helper: the initial rounding norm is positive. -/
theorem niceNorm0_pos {α : Type} [LinearOrderedField α] [FloorRing α]
    (p : ℕ) (num : α) : 0 < niceNorm0 p num := by
  rw [niceNorm0]
  exact zpow_pos (by norm_num) _

/-- Helper: the adjusted rounding norm is positive. -/
theorem niceNorm_pos {α : Type} [LinearOrderedField α] [FloorRing α]
    (p : ℕ) (num : α) : 0 < niceNorm p num := by
  rw [niceNorm]
  have h0 := niceNorm0_pos p num
  split_ifs <;> positivity

/-- Helper: nice rounding of a nonnegative value is nonnegative. -/
theorem niceRound_nonneg {α : Type} [LinearOrderedField α] [FloorRing α]
    (p : ℕ) {num : α} (down : Bool) (h : 0 ≤ num) : 0 ≤ niceRound p num down := by
  have hn := niceNorm_pos p num
  have hn0 := niceNorm0_pos p num
  have hnum1 : 0 ≤ num * niceNorm p num := mul_nonneg h hn.le
  rw [niceRound]
  split_ifs with hwin hdown hadj
  · apply div_nonneg _ hn.le
    exact_mod_cast Int.floor_nonneg.mpr (npRound1_nonneg hnum1)
  · apply div_nonneg _ hn.le
    exact_mod_cast Int.ceil_nonneg (npRound1_nonneg hnum1)
  · -- adjust branch: `num` is nudged down by half a unit, but the
    -- adjustment condition bounds `num * niceNorm0` below by
    -- `1 - EPSILON`, so the nudged product stays nonnegative.
    have hfm : 1 - epsF α < fmodF (num * niceNorm0 p num) 10 := by
      have hlt := abs_lt.mp hadj
      linarith [hlt.1]
    have hbelow : 1 - epsF α < num * niceNorm0 p num :=
      lt_of_lt_of_le hfm (fmodF_le_self (mul_nonneg h hn0.le))
    have hepsv : epsF α = 1 / 10 ^ 7 := rfl
    rw [hepsv] at hbelow
    have hkey : 0 ≤ (num - 1 / 2 / niceNorm p num) * niceNorm p num := by
      have hexp : (num - 1 / 2 / niceNorm p num) * niceNorm p num =
          num * niceNorm p num - 1 / 2 := by
        field_simp
        ring
      rw [hexp, niceNorm]
      split_ifs with h1 h2
      · have hr : num * (niceNorm0 p num * 2) = 2 * (num * niceNorm0 p num) := by ring
        rw [hr]
        linarith
      · have hr : num * (niceNorm0 p num / 10) = (num * niceNorm0 p num) / 10 := by ring
        rw [hr]
        linarith
      · linarith
    exact div_nonneg (npRound_nonneg (npRound1_nonneg hkey)) hn.le
  · apply div_nonneg _ hn.le
    exact npRound_nonneg (npRound1_nonneg hnum1)

/-- Helper: the scalar inverse Möbius transform undoes the scalar
forward transform away from the pole. -/
theorem realInvert_realTransform (k r : ℚ) (hk : k ≠ 0) (hrk : r + k ≠ 0) :
    realInvertQ k (realTransformQ k r) = r := by
  have hw : realTransformQ k r ≠ 1 := by
    rw [realTransformQ]
    intro hc
    have hz : 2 * k / (r + k) = 0 := by linarith
    rcases div_eq_zero_iff.mp hz with h | h
    · exact hk (by linarith)
    · exact hrk h
  have hne : 1 - realTransformQ k r ≠ 0 := fun hc => hw (by linarith)
  rw [realInvertQ]
  simp only [if_neg hw]
  rw [realTransformQ] at hne ⊢
  field_simp at hne ⊢
  ring

/-- Helper: the transformed lower endpoint of the real locator range. -/
theorem realTransform_zero (k : ℚ) (hk : k ≠ 0) : realTransformQ k 0 = -1 := by
  rw [realTransformQ, zero_add]
  field_simp
  norm_num

/-- Helper: the nicely rounded mid tick of the real locator is
nonnegative. -/
theorem realMidTick_nonneg (p : ℕ) (k : ℚ) (hk : 0 < k) : 0 ≤ realMidTick p k := by
  have hIk : (0 : ℚ) < INF_Q + k := by
    have : (0 : ℚ) < INF_Q := by norm_num [INF_Q]
    linarith
  have hmid : (realTransformQ k 0 + realTransformQ k INF_Q) / 2 = -k / (INF_Q + k) := by
    rw [realTransform_zero k hk.ne', realTransformQ]
    field_simp
    ring
  have hw1 : -k / (INF_Q + k) ≠ 1 := by
    intro hc
    rw [div_eq_one_iff_eq hIk.ne'] at hc
    linarith
  have hinv : realInvertQ k (-k / (INF_Q + k)) = k * INF_Q / (INF_Q + 2 * k) := by
    rw [realInvertQ]
    simp only [if_neg hw1]
    have h2 : (0 : ℚ) < INF_Q + 2 * k := by
      have : (0 : ℚ) < INF_Q := by norm_num [INF_Q]
      linarith
    field_simp
    left
    ring
  rw [realMidTick, hmid]
  apply niceRound_nonneg
  rw [hinv]
  have hI : (0 : ℚ) < INF_Q := by norm_num [INF_Q]
  positivity

/-- Claim C6 (amended): the real-axis tick locator's output is sorted
ascending (not necessarily strictly — see the counterexample) and always
contains exactly the nicely rounded inverse transform of the arithmetic
mean of the Möbius-transformed range endpoints. -/
theorem real_locator_sorted_mid (fuel n p : ℕ) (k : ℚ) (hk : 0 < k) :
    (realTicks fuel n p k).Sorted (· ≤ ·) ∧
    realMidTick p k ∈ realTicks fuel n p k := by
  constructor
  · rw [realTicks, tickValuesG]
    exact List.sorted_insertionSort _ _
  · have hr0 : 0 ≤ realMidTick p k := realMidTick_nonneg p k hk
    have hroundtrip : realInvertQ k (realTransformQ k (realMidTick p k)) = realMidTick p k :=
      realInvert_realTransform k _ hk.ne' (by linarith)
    rw [realTicks, tickValuesG]
    rw [List.mem_insertionSort]
    apply List.mem_map.mpr
    refine ⟨realTransformQ k (realMidTick p k), ?_, hroundtrip⟩
    have hmean : (realOps k n p).transform
        (niceRound (realOps k n p).precision
          ((realOps k n p).invert
            (((realOps k n p).transform 0 + (realOps k n p).transform INF_Q) / 2)) true) =
        realTransformQ k (realMidTick p k) := by
      rw [realMidTick]
      rfl
    rw [← hmean]
    simp [List.mem_cons]

/-- Witness for C6's amended theorem at a concrete configuration. -/
theorem real_locator_sorted_mid_witness :
    (realTicks 10 3 1 1).Sorted (· ≤ ·) ∧ realMidTick 1 1 ∈ realTicks 10 3 1 1 :=
  real_locator_sorted_mid 10 3 1 1 one_pos

theorem clog10_eq_of_bounds {r : ℚ} {e : ℤ} (h0 : 0 < r) (h1 : r ≤ (10 : ℚ) ^ e)
    (h2 : (10 : ℚ) ^ (e - 1) < r) : Int.clog 10 r = e := by
  have hb : 1 < (10 : ℕ) := by norm_num
  have h1' : r ≤ ((10 : ℕ) : ℚ) ^ e := by exact_mod_cast h1
  have hle : Int.clog 10 r ≤ e := (Int.le_zpow_iff_clog_le hb h0).mp h1'
  have hge : e ≤ Int.clog 10 r := by
    by_contra hc
    push_neg at hc
    have hle2 : Int.clog 10 r ≤ e - 1 := by omega
    have hz := (Int.le_zpow_iff_clog_le hb h0).mpr hle2
    have h2' : r ≤ (10 : ℚ) ^ (e - 1) := by exact_mod_cast hz
    linarith
  omega

theorem niceRound_eval {α : Type} [LinearOrderedField α] [FloorRing α]
    (p : ℕ) (num : α) (down : Bool) (n0 n1 : α)
    (h0 : niceNorm0 p num = n0) (h1 : niceNorm p num = n1) :
    niceRound p num down =
      if 1 < fmodF (num * n0) 10 ∧ fmodF (num * n0) 10 < 9 then
        (if down then ((⌊npRound1 (num * n1)⌋ : ℤ) : α)
         else ((⌈npRound1 (num * n1)⌉ : ℤ) : α)) / n1
      else if |fmodF (num * n0) 10 - 1| < epsF α then
        npRound (npRound1 ((num - 1 / 2 / n1) * n1)) / n1
      else npRound (npRound1 (num * n1)) / n1 := by
  subst h0
  subst h1
  rw [niceRound]
  split_ifs <;> rfl

theorem c6nr1 : niceRound 1 ((500000000 : ℚ) / 500000001) true = 1 := by
  have harg1 : |(500000000 : ℚ) / 500000001| + epsF ℚ = 5000000500000001 / 5000000010000000 := by
    rw [abs_of_pos (by norm_num : (0 : ℚ) < 500000000 / 500000001)]
    norm_num [epsF]
  have hclog1 : Int.clog 10 ((5000000500000001 : ℚ) / 5000000010000000) = 1 := by
    apply clog10_eq_of_bounds (by norm_num) (by norm_num) (by norm_num)
  have h01 : niceNorm0 1 ((500000000 : ℚ) / 500000001) = 1 := by
    norm_num [niceNorm0, niceExp, harg1, hclog1]
  have h11 : niceNorm 1 ((500000000 : ℚ) / 500000001) = 2 := by
    norm_num [niceNorm, h01]
  rw [niceRound_eval 1 _ true 1 2 h01 h11]
  norm_num [fmodF, epsF, npRound, npRound1, npRoundInt, Int.fract]

theorem c6nr2 : niceRound 1 ((1500000001 : ℚ) / 500000001) false = 3 := by
  have harg2 : |(1500000001 : ℚ) / 500000001| + epsF ℚ = 15000000510000001 / 5000000010000000 := by
    rw [abs_of_pos (by norm_num : (0 : ℚ) < 1500000001 / 500000001)]
    norm_num [epsF]
  have hclog2 : Int.clog 10 ((15000000510000001 : ℚ) / 5000000010000000) = 1 := by
    apply clog10_eq_of_bounds (by norm_num) (by norm_num) (by norm_num)
  have h02 : niceNorm0 1 ((1500000001 : ℚ) / 500000001) = 1 := by
    norm_num [niceNorm0, niceExp, harg2, hclog2]
  have h12 : niceNorm 1 ((1500000001 : ℚ) / 500000001) = 2 := by
    norm_num [niceNorm, h02]
  rw [niceRound_eval 1 _ false 1 2 h02 h12]
  norm_num [fmodF, epsF, npRound, npRound1, npRoundInt, Int.fract]

theorem c6nr3 : niceRound 1 ((1 : ℚ) / 3) true = 1 / 2 := by
  have harg3 : |(1 : ℚ) / 3| + epsF ℚ = 10000003 / 30000000 := by
    rw [abs_of_pos (by norm_num : (0 : ℚ) < 1 / 3)]
    norm_num [epsF]
  have hclog3 : Int.clog 10 ((10000003 : ℚ) / 30000000) = 0 := by
    apply clog10_eq_of_bounds (by norm_num) (by norm_num) (by norm_num)
  have h03 : niceNorm0 1 ((1 : ℚ) / 3) = 1 := by
    norm_num [niceNorm0, niceExp, harg3, hclog3]
  have h13 : niceNorm 1 ((1 : ℚ) / 3) = 2 := by
    norm_num [niceNorm, h03]
  have habs3 : |(2 : ℚ) / 3| = 2 / 3 := abs_of_pos (by norm_num)
  rw [niceRound_eval 1 _ true 1 2 h03 h13]
  norm_num [fmodF, epsF, npRound, npRound1, npRoundInt, Int.fract, habs3]

theorem c6nr4 : niceRound 1 ((1 : ℚ) / 5) true = 0 := by
  have harg4 : |(1 : ℚ) / 5| + epsF ℚ = 2000001 / 10000000 := by
    rw [abs_of_pos (by norm_num : (0 : ℚ) < 1 / 5)]
    norm_num [epsF]
  have hclog4 : Int.clog 10 ((2000001 : ℚ) / 10000000) = 0 := by
    apply clog10_eq_of_bounds (by norm_num) (by norm_num) (by norm_num)
  have h04 : niceNorm0 1 ((1 : ℚ) / 5) = 1 := by
    norm_num [niceNorm0, niceExp, harg4, hclog4]
  have h14 : niceNorm 1 ((1 : ℚ) / 5) = 2 := by
    norm_num [niceNorm, h04]
  have habs4 : |(4 : ℚ) / 5| = 4 / 5 := abs_of_pos (by norm_num)
  rw [niceRound_eval 1 _ true 1 2 h04 h14]
  norm_num [fmodF, epsF, npRound, npRound1, npRoundInt, Int.fract, habs4]

theorem walkDir_stop {α : Type} [LinearOrderedField α] [FloorRing α]
    (ops : TickOps α) (side : Bool) (sgn endv : α) (fuel : ℕ) (last d : α) (d0 : Option α)
    (hguard : ops.oor (last + d * sgn) = true ∨ |endv - (last + d * sgn)| < d / 2) :
    walkDir ops side sgn endv (fuel + 1) last d d0 = ([], d0) := by
  simp only [walkDir]
  split_ifs with h
  · rfl
  · exact absurd hguard h

theorem walkDir_cons {α : Type} [LinearOrderedField α] [FloorRing α]
    (ops : TickOps α) (side : Bool) (sgn endv : α) (fuel : ℕ) (last d : α) (d0 : Option α)
    (new2 d2 : α) (d02 : Option α) (res : List α × Option α)
    (hguard : ¬(ops.oor (last + d * sgn) = true ∨ |endv - (last + d * sgn)| < d / 2))
    (hnew2 : ops.transform (niceRound ops.precision (ops.invert (last + d * sgn)) side) = new2)
    (hd2 : |new2 - last| = d2)
    (hd02 : (match d0 with | some v => some v | none => some d2) = d02)
    (hres : walkDir ops side sgn endv fuel new2 d2 d02 = res) :
    walkDir ops side sgn endv (fuel + 1) last d d0 = (new2 :: res.1, res.2) := by
  subst hres
  subst hd02
  subst hd2
  subst hnew2
  simp only [walkDir]
  split_ifs with h
  · exact absurd h hguard
  · rfl

theorem realOps_transform (k : ℚ) (n p : ℕ) : (realOps k n p).transform = realTransformQ k := rfl

theorem realOps_invert (k : ℚ) (n p : ℕ) : (realOps k n p).invert = realInvertQ k := rfl

theorem realOps_oor (k : ℚ) (n p : ℕ) : (realOps k n p).oor = realOorQ := rfl

theorem realOps_steps (k : ℚ) (n p : ℕ) : (realOps k n p).steps = n := rfl

theorem realOps_precision (k : ℚ) (n p : ℕ) : (realOps k n p).precision = p := rfl

theorem c6up2 : walkDir (realOps 1 3 1) false 1 ((999999999 : ℚ) / 1000000001) 2
    (1 / 2) (1 / 2) (some (1 / 2)) = ([], some (1 / 2)) := by
  have h := walkDir_stop (realOps 1 3 1) false 1 ((999999999 : ℚ) / 1000000001) 1
    (1 / 2) (1 / 2) (some (1 / 2)) ?_
  · simpa using h
  · right
    norm_num [abs_eq_max_neg, max_def]

theorem c6up : walkDir (realOps 1 3 1) false 1 ((999999999 : ℚ) / 1000000001) 3 0
    ((500000000 : ℚ) / 1000000001) none = ([1 / 2], some (1 / 2)) := by
  have hg : ¬((realOps 1 3 1).oor ((0 : ℚ) + 500000000 / 1000000001 * 1) = true ∨
      |(999999999 : ℚ) / 1000000001 - (0 + 500000000 / 1000000001 * 1)| <
        ((500000000 : ℚ) / 1000000001) / 2) := by
    norm_num [realOps_oor, realOorQ, abs_eq_max_neg, max_def]
  have hi : (realOps 1 3 1).invert ((0 : ℚ) + 500000000 / 1000000001 * 1) =
      (1500000001 : ℚ) / 500000001 := by
    norm_num [realOps_invert, realInvertQ]
  have h2 : (realOps 1 3 1).transform (niceRound (realOps 1 3 1).precision
      ((realOps 1 3 1).invert ((0 : ℚ) + 500000000 / 1000000001 * 1)) false) = 1 / 2 := by
    rw [hi, realOps_precision, c6nr2, realOps_transform]
    norm_num [realTransformQ]
  have hd : |(1 / 2 : ℚ) - 0| = 1 / 2 := by norm_num
  have h := walkDir_cons (realOps 1 3 1) false 1 ((999999999 : ℚ) / 1000000001) 2 0
    ((500000000 : ℚ) / 1000000001) none (1 / 2) (1 / 2) (some (1 / 2)) ([], some (1 / 2))
    hg h2 hd rfl c6up2
  simpa using h

theorem c6down1 : walkDir (realOps 1 3 1) true (-1) (-1 : ℚ) 1 (-1) (2 / 3)
    (some (1 / 3)) = ([], some (1 / 3)) := by
  have h := walkDir_stop (realOps 1 3 1) true (-1) (-1 : ℚ) 0 (-1) (2 / 3) (some (1 / 3)) ?_
  · simpa using h
  · left
    norm_num [realOps_oor, realOorQ, abs_eq_max_neg, max_def]

theorem c6down2 : walkDir (realOps 1 3 1) true (-1) (-1 : ℚ) 2 (-1 / 3) (1 / 3)
    (some (1 / 3)) = ([-1], some (1 / 3)) := by
  have hg : ¬((realOps 1 3 1).oor ((-1 / 3 : ℚ) + 1 / 3 * -1) = true ∨
      |(-1 : ℚ) - (-1 / 3 + 1 / 3 * -1)| < ((1 / 3 : ℚ)) / 2) := by
    norm_num [realOps_oor, realOorQ, abs_eq_max_neg, max_def]
  have hi : (realOps 1 3 1).invert ((-1 / 3 : ℚ) + 1 / 3 * -1) = (1 : ℚ) / 5 := by
    norm_num [realOps_invert, realInvertQ]
  have h2 : (realOps 1 3 1).transform (niceRound (realOps 1 3 1).precision
      ((realOps 1 3 1).invert ((-1 / 3 : ℚ) + 1 / 3 * -1)) true) = -1 := by
    rw [hi, realOps_precision, c6nr4, realOps_transform]
    norm_num [realTransformQ]
  have hd : |(-1 : ℚ) - (-1 / 3)| = 2 / 3 := by
    norm_num [abs_eq_max_neg, max_def]
  have h := walkDir_cons (realOps 1 3 1) true (-1) (-1 : ℚ) 1 (-1 / 3) (1 / 3)
    (some (1 / 3)) (-1) (2 / 3) (some (1 / 3)) ([], some (1 / 3)) hg h2 hd rfl c6down1
  simpa using h

theorem c6down : walkDir (realOps 1 3 1) true (-1) (-1 : ℚ) 3 0 (1 / 2) none =
    ([-1 / 3, -1], some (1 / 3)) := by
  have hg : ¬((realOps 1 3 1).oor ((0 : ℚ) + 1 / 2 * -1) = true ∨
      |(-1 : ℚ) - (0 + 1 / 2 * -1)| < ((1 / 2 : ℚ)) / 2) := by
    norm_num [realOps_oor, realOorQ, abs_eq_max_neg, max_def]
  have hi : (realOps 1 3 1).invert ((0 : ℚ) + 1 / 2 * -1) = (1 : ℚ) / 3 := by
    norm_num [realOps_invert, realInvertQ]
  have h2 : (realOps 1 3 1).transform (niceRound (realOps 1 3 1).precision
      ((realOps 1 3 1).invert ((0 : ℚ) + 1 / 2 * -1)) true) = -1 / 3 := by
    rw [hi, realOps_precision, c6nr3, realOps_transform]
    norm_num [realTransformQ]
  have hd : |(-1 / 3 : ℚ) - 0| = 1 / 3 := by
    norm_num [abs_eq_max_neg, max_def]
  have h := walkDir_cons (realOps 1 3 1) true (-1) (-1 : ℚ) 2 0 (1 / 2) none
    (-1 / 3) (1 / 3) (some (1 / 3)) ([-1], some (1 / 3)) hg h2 hd rfl c6down2
  simpa using h

/-- Claim C6 (counterexample): for the range `[0, INF]` with 3 steps,
precision 1 and normalization 1, the real-axis locator emits the tick 0
twice — the downward walk's last step rounds to the lower range endpoint,
whose inverse duplicates the endpoint tick — so the output
`[0, 0, 1/2, 1, 3, 10^9]` is not strictly sorted. -/

theorem real_locator_duplicate_counterexample :
    realTicks 3 3 1 1 = [0, 0, 1 / 2, 1, 3, 10 ^ 9] ∧
    ¬ (realTicks 3 3 1 1).Sorted (· < ·) := by
  have h : realTicks 3 3 1 1 = [0, 0, 1 / 2, 1, 3, 10 ^ 9] := by
    norm_num [realTicks, tickValuesG, realOps_transform, realOps_invert, realOps_steps,
      realOps_precision, realTransformQ, realInvertQ, INF_Q, EPSILON_Q,
      c6nr1, c6up, c6down, List.insertionSort, List.orderedInsert, abs_eq_max_neg, max_def]
  refine ⟨h, ?_⟩
  rw [h]
  intro hs
  norm_num [List.sorted_cons] at hs

theorem imagOps_transform (k : ℝ) (s p : ℕ) : (imagOps k s p).transform = imagTransformR k := rfl

theorem imagOps_invert (k : ℝ) (s p : ℕ) : (imagOps k s p).invert = imagInvertR k := rfl

theorem imagOps_oor (k : ℝ) (s p : ℕ) : (imagOps k s p).oor = imagOorR := rfl

theorem imagOps_precision (k : ℝ) (s p : ℕ) : (imagOps k s p).precision = p := rfl

theorem imagTransform_mem {k r : ℝ} (hk : 0 < k) (hr : 0 ≤ r) :
    0 ≤ imagTransformR k r ∧ imagTransformR k r ≤ Real.pi := by
  have hden : ((r : ℂ) * Complex.I + (k : ℂ)) ≠ 0 := by
    intro h
    have h2 : ((r : ℂ) * Complex.I + (k : ℂ)).re = 0 := by rw [h]; rfl
    simp [Complex.add_re, Complex.mul_re] at h2
    linarith
  have hD : 0 < Complex.normSq ((r : ℂ) * Complex.I + (k : ℂ)) := by
    rw [Complex.normSq_pos]
    exact hden
  have hzim : 0 ≤ (moebiusC k ((r : ℂ) * Complex.I)).im := by
    rw [moebiusC, Complex.sub_im, Complex.one_im, Complex.div_im]
    have h1 : ((2 : ℂ) * (k : ℂ)).im = 0 := by simp
    have h2 : ((2 : ℂ) * (k : ℂ)).re = 2 * k := by simp
    have h3 : ((r : ℂ) * Complex.I + (k : ℂ)).re = k := by
      simp [Complex.add_re, Complex.mul_re]
    have h4 : ((r : ℂ) * Complex.I + (k : ℂ)).im = r := by
      simp [Complex.add_im, Complex.mul_im]
    rw [h1, h2, h3, h4]
    have he : (0 : ℝ) - (0 * k / Complex.normSq ((r : ℂ) * Complex.I + (k : ℂ)) -
        2 * k * r / Complex.normSq ((r : ℂ) * Complex.I + (k : ℂ))) =
        2 * k * r / Complex.normSq ((r : ℂ) * Complex.I + (k : ℂ)) := by
      ring
    rw [he]
    exact div_nonneg (mul_nonneg (mul_nonneg (by norm_num) hk.le) hr) hD.le
  constructor
  · rw [imagTransformR]
    linarith [Complex.arg_le_pi (moebiusC k ((r : ℂ) * Complex.I))]
  · rw [imagTransformR]
    linarith [Complex.arg_nonneg_iff.mpr hzim]

theorem imagTransform_zero {k : ℝ} (hk : 0 < k) : imagTransformR k 0 = 0 := by
  have hkne : (k : ℂ) ≠ 0 := Complex.ofReal_ne_zero.mpr hk.ne'
  have h : moebiusC k (((0 : ℝ) : ℂ) * Complex.I) = -1 := by
    rw [moebiusC, Complex.ofReal_zero, zero_mul, zero_add, mul_div_assoc,
      div_self hkne, mul_one]
    norm_num
  rw [imagTransformR, h, Complex.arg_neg_one, sub_self]

theorem imagInvert_zero (k : ℝ) : imagInvertR k 0 = 0 := by
  have hw : angToC (Real.pi + 0) = -1 := by
    apply Complex.ext
    · show Real.cos (Real.pi + 0) = (-1 : ℂ).re
      rw [add_zero, Real.cos_pi]
      simp
    · show Real.sin (Real.pi + 0) = (-1 : ℂ).im
      rw [add_zero, Real.sin_pi]
      simp
  rw [imagInvertR, hw, moebiusInvC, nudgeC, if_neg (by norm_num : (-1 : ℂ) ≠ 1)]
  norm_num

theorem imagInvert_nonneg {k x : ℝ} (hk : 0 < k) (h0 : 0 ≤ x) (hpi : x ≤ Real.pi) :
    0 ≤ imagInvertR k x := by
  rw [imagInvertR, Complex.neg_im]
  by_cases hw : angToC (Real.pi + x) = 1
  · rw [moebiusInvC, nudgeC, if_pos hw]
    have h1 : (1 : ℂ) - (1 - (EPS_R : ℂ)) = (EPS_R : ℂ) := by ring
    have h2 : (k : ℂ) * (1 + (1 - (EPS_R : ℂ))) / (EPS_R : ℂ) =
        (((k * (2 - EPS_R) / EPS_R) : ℝ) : ℂ) := by
      push_cast
      ring
    rw [h1, h2, Complex.ofReal_im]
    norm_num
  · rw [moebiusInvC, nudgeC, if_neg hw]
    set w := angToC (Real.pi + x) with hwdef
    have him : w.im = Real.sin (Real.pi + x) := rfl
    have hz_im : ((k : ℂ) * (1 + w)).im = k * w.im := by
      simp [Complex.mul_im, Complex.add_im]
    have hz_re : ((k : ℂ) * (1 + w)).re = k * (1 + w.re) := by
      simp [Complex.mul_re, Complex.add_re]
    have hd_re : ((1 : ℂ) - w).re = 1 - w.re := by simp
    have hd_im : ((1 : ℂ) - w).im = -w.im := by simp
    have hD : 0 < Complex.normSq (1 - w) := by
      rw [Complex.normSq_pos, sub_ne_zero]
      exact fun h => hw h.symm
    rw [Complex.div_im, hz_im, hz_re, hd_re, hd_im]
    have hsin : w.im ≤ 0 := by
      rw [him]
      have hs : Real.sin (Real.pi + x) = -Real.sin x := by
        rw [Real.sin_add]
        simp [Real.sin_pi, Real.cos_pi]
      rw [hs, neg_nonpos]
      exact Real.sin_nonneg_of_nonneg_of_le_pi h0 hpi
    have heq : k * w.im * (1 - w.re) / Complex.normSq (1 - w) -
        k * (1 + w.re) * -w.im / Complex.normSq (1 - w) =
        2 * k * w.im / Complex.normSq (1 - w) := by
      field_simp
      ring
    rw [heq]
    have hneg : -(2 * k * w.im / Complex.normSq (1 - w)) =
        2 * k * -w.im / Complex.normSq (1 - w) := by
      ring
    rw [hneg]
    apply div_nonneg _ hD.le
    have : 0 ≤ -w.im := by linarith
    nlinarith [hk.le]

theorem imag_walk_mem {k : ℝ} (hk : 0 < k) (s p : ℕ) (side : Bool) (sgn endv : ℝ) :
    ∀ (fuel : ℕ) (last d : ℝ) (d0 : Option ℝ),
      ∀ y ∈ (walkDir (imagOps k s p) side sgn endv fuel last d d0).1,
        0 ≤ y ∧ y ≤ Real.pi := by
  intro fuel
  induction fuel with
  | zero =>
    intro last d d0 y hy
    simp [walkDir] at hy
  | succ n ih =>
    intro last d d0 y hy
    simp only [walkDir] at hy
    by_cases hc : (imagOps k s p).oor (last + d * sgn) = true ∨
        |endv - (last + d * sgn)| < d / 2
    · rw [if_pos hc] at hy
      simp at hy
    · rw [if_neg hc] at hy
      simp only [List.mem_cons] at hy
      rcases hy with rfl | hy
      · have h1 : ¬((imagOps k s p).oor (last + d * sgn) = true) := fun h => hc (Or.inl h)
        rw [imagOps_oor, imagOorR] at h1
        have hin : 0 ≤ last + d * sgn ∧ last + d * sgn ≤ Real.pi := by
          simpa using h1
        rw [imagOps_transform, imagOps_invert, imagOps_precision]
        exact imagTransform_mem hk
          (niceRound_nonneg _ _ (imagInvert_nonneg hk hin.1 hin.2))
      · exact ih _ _ _ y hy

theorem tickValuesG_bounds {α : Type} [LinearOrderedField α] [FloorRing α]
    (ops : TickOps α) (fuel : ℕ) (vmin vmax : α) (P : α → Prop)
    (hmin : P (ops.transform vmin))
    (hmax : P (ops.transform vmax))
    (hmean : P (ops.transform (niceRound ops.precision
      (ops.invert ((ops.transform vmin + ops.transform vmax) / 2)) true)))
    (hwalk : ∀ (side : Bool) (sgn endv l d : α) (d0 : Option α) (x : α),
      x ∈ (walkDir ops side sgn endv fuel l d d0).1 → P x) :
    ∀ t ∈ tickValuesG ops fuel vmin vmax, ∃ x, P x ∧ t = ops.invert x := by
  intro t ht
  rw [tickValuesG, List.mem_insertionSort] at ht
  obtain ⟨x, hx, rfl⟩ := List.mem_map.mp ht
  refine ⟨x, ?_, rfl⟩
  simp only [List.mem_cons, List.mem_append] at hx
  rcases hx with rfl | rfl | rfl | hx | hx
  · exact hmin
  · exact hmax
  · exact hmean
  · exact hwalk false 1 _ _ _ none x hx
  · rcases hm : (walkDir ops false 1 (ops.transform vmax) fuel
        (ops.transform (niceRound ops.precision
          (ops.invert ((ops.transform vmin + ops.transform vmax) / 2)) true))
        (|ops.transform vmin - ops.transform vmax| / (ops.steps + 1)) none).2 with - | dS
    · rw [hm] at hx
      exact absurd hx (List.not_mem_nil x)
    · rw [hm] at hx
      exact hwalk true (-1) _ _ _ none x hx

theorem imagTickVals_props (fuel s p : ℕ) (k : ℝ) (hk : 0 < k) :
    (imagTickVals fuel s p k).Sorted (· ≤ ·) ∧
    (∀ t ∈ imagTickVals fuel s p k, 0 ≤ t) ∧
    (0 : ℝ) ∈ imagTickVals fuel s p k := by
  refine ⟨?_, ?_, ?_⟩
  · rw [imagTickVals, tickValuesG]
    exact List.sorted_insertionSort _ _
  · intro t ht
    rw [imagTickVals] at ht
    obtain ⟨x, hxP, rfl⟩ := tickValuesG_bounds (imagOps k s p) fuel 0 INF_R
      (fun y => 0 ≤ y ∧ y ≤ Real.pi)
      (by rw [imagOps_transform, imagTransform_zero hk]
          exact ⟨le_refl 0, Real.pi_pos.le⟩)
      (by rw [imagOps_transform]
          exact imagTransform_mem hk (by norm_num [INF_R]))
      (by rw [imagOps_transform, imagOps_invert, imagOps_precision]
          apply imagTransform_mem hk
          apply niceRound_nonneg
          apply imagInvert_nonneg hk
          · rw [imagTransform_zero hk]
            have hI := imagTransform_mem hk (show (0 : ℝ) ≤ INF_R by norm_num [INF_R])
            linarith [hI.1]
          · rw [imagTransform_zero hk]
            have hI := imagTransform_mem hk (show (0 : ℝ) ≤ INF_R by norm_num [INF_R])
            linarith [hI.2, Real.pi_pos])
      (fun side sgn endv l d d0 x hx =>
        imag_walk_mem hk s p side sgn endv fuel l d d0 x hx)
      t ht
    rw [imagOps_invert]
    exact imagInvert_nonneg hk hxP.1 hxP.2
  · rw [imagTickVals, tickValuesG, List.mem_insertionSort]
    apply List.mem_map.mpr
    refine ⟨(imagOps k s p).transform 0, List.mem_cons_self _ _, ?_⟩
    rw [imagOps_invert, imagOps_transform, imagTransform_zero hk]
    exact imagInvert_zero k

/-- Claim C5: the imaginary-axis tick locator's output is symmetric about
zero (for every tick `t`, `-t` is also a tick), sorted ascending, has odd
length, and contains the value `0`. -/
theorem imag_locator_symmetric (fuel steps p : ℕ) (k : ℝ) (hk : 0 < k) :
    (∀ t ∈ imagCall fuel steps p k, -t ∈ imagCall fuel steps p k) ∧
    (imagCall fuel steps p k).Sorted (· ≤ ·) ∧
    Odd (imagCall fuel steps p k).length ∧
    (0 : ℝ) ∈ imagCall fuel steps p k := by
  obtain ⟨hsort, hpos, hmem⟩ := imagTickVals_props fuel steps p k hk
  rcases hLs : imagTickVals fuel steps p k with - | ⟨a, rest⟩
  · rw [hLs] at hmem
    exact absurd hmem (List.not_mem_nil 0)
  · rw [hLs] at hsort hpos hmem
    have ha : a = 0 := by
      rcases List.mem_cons.mp hmem with h | h
      · exact h.symm
      · have h1 : a ≤ 0 := (List.sorted_cons.mp hsort).1 0 h
        have h2 : 0 ≤ a := hpos a (List.mem_cons_self a rest)
        linarith
    subst ha
    have hcall : imagCall fuel steps p k =
        (rest.reverse.map (fun t => -t)) ++ ((0 : ℝ) :: rest) := by
      simp only [imagCall]
      rw [hLs]
      rfl
    rw [hcall]
    obtain ⟨hhead, hrests⟩ := List.sorted_cons.mp hsort
    refine ⟨?_, ?_, ?_, ?_⟩
    · intro t htm
      rcases List.mem_append.mp htm with hL | hR
      · obtain ⟨r, hr, rfl⟩ := List.mem_map.mp hL
        rw [neg_neg]
        exact List.mem_append_right _ (List.mem_cons_of_mem 0 (List.mem_reverse.mp hr))
      · rcases List.mem_cons.mp hR with rfl | hr
        · rw [neg_zero]
          exact List.mem_append_right _ (List.mem_cons_self 0 rest)
        · exact List.mem_append_left _
            (List.mem_map.mpr ⟨t, List.mem_reverse.mpr hr, rfl⟩)
    · rw [List.Sorted, List.pairwise_append]
      refine ⟨?_, hsort, ?_⟩
      · rw [List.pairwise_map, List.pairwise_reverse]
        exact List.Pairwise.imp (fun h => neg_le_neg h) hrests
      · intro a haL b hbR
        obtain ⟨r, hr, rfl⟩ := List.mem_map.mp haL
        have hrpos : 0 ≤ r := hhead r (List.mem_reverse.mp hr)
        have hbpos : 0 ≤ b := hpos b hbR
        linarith
    · have hlen : ((rest.reverse.map (fun t => -t)) ++ ((0 : ℝ) :: rest)).length =
          2 * rest.length + 1 := by
        simp [List.length_append, List.length_map, List.length_reverse, List.length_cons]
        omega
      rw [hlen]
      exact odd_two_mul_add_one rest.length
    · exact List.mem_append_right _ (List.mem_cons_self 0 rest)

/-- Witness for claim C5 at the concrete configuration
`fuel = 2`, `steps = 2`, `precision = 1`, `norm = 1`. -/
theorem imag_locator_symmetric_witness :
    (0 : ℝ) < 1 ∧
    ((∀ t ∈ imagCall 2 2 1 1, -t ∈ imagCall 2 2 1 1) ∧
     (imagCall 2 2 1 1).Sorted (· ≤ ·) ∧
     Odd (imagCall 2 2 1 1).length ∧
     (0 : ℝ) ∈ imagCall 2 2 1 1) :=
  ⟨one_pos, imag_locator_symmetric 2 2 1 1 one_pos⟩
